import Mathlib

/-!
Verification of the grid pathfinder in `src/AI/Path_planner/api.py`.

Modelling conventions (shallow embedding of the Python source):

* The service rounds every raw coordinate to 6 decimal digits before use,
  so a rounded coordinate corresponds exactly to an integer number of
  micro-units (the value times 10^6).  We therefore model a post-rounding
  coordinate as a pair of integers in micro-units; the lattice pitch
  0.001 becomes the integer step 1000.  This is the fixed-point view the
  spec itself describes as behaviour-preserving; binary floating-point
  representation drift is outside the scope of the embedding.
* The priority key of the Python heap is the float `g + h` where `h` is a
  sum of absolute differences of rounded coordinates, hence an exact
  multiple of 10^-6.  Scaling by 10^6 maps it to the integer
  `1000000 * g + hMu`, an order- and equality-preserving change, so heap
  comparisons are modelled exactly.
* `heapq` pops a least element of the heap under Python tuple comparison
  on `(f, cell)`; `popMin` removes the least entry of the queue list
  under the same lexicographic order.
* Python dicts `came` and `g` are association lists updated by shadowing;
  lookup returns the most recent binding.
* The `while openq:` loop is modelled with explicit fuel: a result of
  `none` means the loop has not produced an answer within that many
  iterations (in particular a run that never terminates yields `none`
  for every fuel).  `some []` is the NotFound signal, exactly as in the
  source, and `some p` with `p ≠ []` is a found path.
-/

/-- A lattice cell: a post-rounding coordinate in micro-units
(latitude-like, longitude-like). -/
abbrev Coord := ℤ × ℤ

/-- `h(a, b) = abs(a[0]-b[0]) + abs(a[1]-b[1])` of the source, expressed in
micro-units. -/
def hMu (a b : Coord) : ℕ := (a.1 - b.1).natAbs + (a.2 - b.2).natAbs

/-- A frontier entry `(f, cell)`; `f` is the scaled priority key. -/
abbrev Entry := ℕ × Coord

/-- Python tuple comparison on `(f, (x, y))`: first the numeric key, then the
coordinate tuple lexicographically. -/
def entryLe (e1 e2 : Entry) : Prop :=
  e1.1 < e2.1 ∨ (e1.1 = e2.1 ∧
    (e1.2.1 < e2.2.1 ∨ (e1.2.1 = e2.2.1 ∧ e1.2.2 ≤ e2.2.2)))

instance entryLe.instDecidable (e1 e2 : Entry) : Decidable (entryLe e1 e2) :=
  inferInstanceAs (Decidable (e1.1 < e2.1 ∨ (e1.1 = e2.1 ∧
    (e1.2.1 < e2.2.1 ∨ (e1.2.1 = e2.2.1 ∧ e1.2.2 ≤ e2.2.2)))))

/-- Remove a least entry (under `entryLe`) from the queue, as `heappop`
does; `none` iff the queue is empty. -/
def popMin : List Entry → Option (Entry × List Entry)
  | [] => none
  | e :: es =>
    match popMin es with
    | none => some (e, [])
    | some (m, rest) => if entryLe e m then some (e, es) else some (m, e :: rest)

/-- Association-list lookup with shadowing: the Python dict access. -/
def alookup {β : Type} (c : Coord) : List (Coord × β) → Option β
  | [] => none
  | (k, v) :: t => if c = k then some v else alookup c t

/-- The four lattice neighbours of a cell, in the order of the source's
`[(1,0),(-1,0),(0,1),(0,-1)]` offset list (offsets scaled by the pitch). -/
def nbrs (c : Coord) : List Coord :=
  [(c.1 + 1000, c.2), (c.1 - 1000, c.2), (c.1, c.2 + 1000), (c.1, c.2 - 1000)]

/-- The mutable state of the search loop: the frontier `openq`, the
back-link table `came` and the cost table `g`. -/
structure AState where
  openq : List Entry
  came : List (Coord × Option Coord)
  g : List (Coord × ℕ)

/-- The scale factor taking the float key `g + h` to an exact integer. -/
def scaleW : ℕ := 1000000

/-- Record an improved cost and back-link for `nb` and push its frontier
entry: the `g[nb] = ng; came[nb] = cur; heappush(...)` lines of the
source. -/
def pushState (goal : Coord) (cur nb : Coord) (ng : ℕ) (st : AState) : AState :=
  ⟨(scaleW * ng + hMu nb goal, nb) :: st.openq,
    (nb, some cur) :: st.came, (nb, ng) :: st.g⟩

/-- One neighbour relaxation from the body of the source's `for dx,dy`
loop: skip blocked cells, otherwise push and record when the cell is new
or improved. -/
def relaxOne (goal : Coord) (blocked : List Coord) (cur : Coord)
    (st : AState) (nb : Coord) : AState :=
  if nb ∈ blocked then st
  else
    let ng := (alookup cur st.g).getD 0 + 1
    match alookup nb st.g with
    | some v => if ng < v then pushState goal cur nb ng st else st
    | none => pushState goal cur nb ng st

/-- Expansion of a popped cell: relax its four neighbours in source order,
starting from the state whose frontier is the rest of the queue. -/
def expand (goal : Coord) (blocked : List Coord) (cur : Coord)
    (rest : List Entry) (st : AState) : AState :=
  (nbrs cur).foldl (relaxOne goal blocked cur) ⟨rest, st.came, st.g⟩

/-- The path-reconstruction loop `while cur is not None`, walking `came`
back-links; fuelled because a corrupt table would make the source loop
forever.  Produces the goal-to-start list, as the source does before its
final `reversed`. -/
def backWalk (came : List (Coord × Option Coord)) : ℕ → Coord → Option (List Coord)
  | 0, _ => none
  | n + 1, c =>
    match alookup c came with
    | none => none
    | some none => some [c]
    | some (some p) => (backWalk came n p).map (fun l => c :: l)

/-- The three possible outcomes of one iteration of the `while openq`
loop. -/
inductive StepOut where
  | emptyFrontier : StepOut
  | goalPopped : Option (List Coord) → StepOut
  | more : AState → StepOut

/-- One iteration of the search loop: pop the least entry; if it is the
goal, reconstruct and reverse; otherwise expand. -/
def astarStep (goal : Coord) (blocked : List Coord) (st : AState) : StepOut :=
  match popMin st.openq with
  | none => .emptyFrontier
  | some ((_, cur), rest) =>
    if cur = goal then
      .goalPopped ((backWalk st.came (st.came.length + 1) cur).map List.reverse)
    else
      .more (expand goal blocked cur rest st)

/-- The fuelled search loop.  `some []` is the `return []` of the source
(frontier exhausted); `some p` with `p ≠ []` is a reconstructed path;
`none` means the loop is still running after that many iterations. -/
def astarFuel (goal : Coord) (blocked : List Coord) : ℕ → AState → Option (List Coord)
  | 0, _ => none
  | n + 1, st =>
    match astarStep goal blocked st with
    | .emptyFrontier => some []
    | .goalPopped p => p
    | .more st2 => astarFuel goal blocked n st2

/-- The initial state built by `astar`: frontier `[(0, start)]`,
`came = {start: None}`, `g = {start: 0}`. -/
def initState (start : Coord) : AState :=
  ⟨[(0, start)], [(start, none)], [(start, 0)]⟩

/-- `astar(start, goal, blocked)` run for `fuel` loop iterations. -/
def astarRun (start goal : Coord) (blocked : List Coord) (fuel : ℕ) : Option (List Coord) :=
  astarFuel goal blocked fuel (initState start)

/-- Iterating only the `more` branch of the loop, to name the states the
search passes through. -/
def iterStep (goal : Coord) (blocked : List Coord) : ℕ → AState → Option AState
  | 0, st => some st
  | n + 1, st =>
    match astarStep goal blocked st with
    | .more st2 => iterStep goal blocked n st2
    | _ => none

/-- The body of a `/plan` request after rounding: `start`, `goal`, the
blocked cells, and the polygon `deny` field the handler never reads. -/
structure PlanReq where
  start : Coord
  goal : Coord
  blocked : List Coord
  deny : List (List Coord)

/-- Outcome of the `/plan` handler: the HTTP 400 `no path` failure, or a
path response. -/
inductive PlanOut where
  | noPath400 : PlanOut
  | ok : List Coord → PlanOut
deriving DecidableEq

/-- The `/plan` handler: run `astar`; an empty path becomes the HTTP 400
failure, any other path is returned.  `none` again means the call has not
finished. -/
def planModel (r : PlanReq) (fuel : ℕ) : Option PlanOut :=
  match astarRun r.start r.goal r.blocked fuel with
  | none => none
  | some p => if p = [] then some .noPath400 else some (.ok p)

/-- `b` is one lattice step from `a` (the neighbour relation of the
search graph). -/
def isStep (a b : Coord) : Prop := b ∈ nbrs a

instance isStep.instDecidable (a b : Coord) : Decidable (isStep a b) :=
  inferInstanceAs (Decidable (b ∈ nbrs a))

/-- Executable checker for step-chains, so that concrete paths can be
checked by kernel evaluation. -/
def stepChainB : List Coord → Bool
  | [] => true
  | [_] => true
  | a :: b :: t => decide (b ∈ nbrs a) && stepChainB (b :: t)

instance stepChain.instDecidable (l : List Coord) : Decidable (List.Chain' isStep l) :=
  decidable_of_iff (stepChainB l = true) (by
    induction l with
    | nil => simp [stepChainB]
    | cons a t ih =>
      cases t with
      | nil => simp [stepChainB]
      | cons b t2 =>
        rw [show stepChainB (a :: b :: t2) =
          (decide (b ∈ nbrs a) && stepChainB (b :: t2)) from rfl]
        rw [List.chain'_cons, Bool.and_eq_true, decide_eq_true_eq]
        exact ⟨fun hp => ⟨hp.1, ih.mp hp.2⟩, fun hp => ⟨hp.1, ih.mpr hp.2⟩⟩)

/-- An ordered cell sequence from `s` to `t` inclusive moving one lattice
step at a time. -/
def ValidPath (s t : Coord) (p : List Coord) : Prop :=
  p.head? = some s ∧ p.getLast? = some t ∧ List.Chain' isStep p

instance ValidPath.instDecidable (s t : Coord) (p : List Coord) : Decidable (ValidPath s t p) :=
  inferInstanceAs (Decidable (p.head? = some s ∧ p.getLast? = some t ∧ List.Chain' isStep p))

/-- No cell of `p` lies in the blocked set. -/
def AvoidsBlocked (blocked : List Coord) (p : List Coord) : Prop :=
  ∀ c ∈ p, c ∉ blocked

instance AvoidsBlocked.instDecidable (blocked : List Coord) (p : List Coord) :
    Decidable (AvoidsBlocked blocked p) :=
  inferInstanceAs (Decidable (∀ c ∈ p, c ∉ blocked))

/-- `c` lies on the 0.001-pitch lattice generated from `s`. -/
def LatticeAligned (s c : Coord) : Prop :=
  ∃ i j : ℤ, c = (s.1 + 1000 * i, s.2 + 1000 * j)

/-- Manhattan grid-distance between two cells in units of the lattice
pitch (exact for aligned cells). -/
def manSteps (s t : Coord) : ℕ := hMu s t / 1000

/-- The spec's wording for a legal move: exactly one lattice step along
exactly one axis, the other axis unchanged. -/
def oneAxisStep (a b : Coord) : Prop :=
  (a.2 = b.2 ∧ (b.1 - a.1).natAbs = 1000) ∨ (a.1 = b.1 ∧ (b.2 - a.2).natAbs = 1000)

/-- The search-loop invariant.  `qf` ties every frontier entry to the cost
table (the initial `(0, start)` entry is special: its key underestimates
`h`), `link` describes the back-link tree, `settled` says that a
discovered cell either still has a usable frontier entry or has had all
its unblocked neighbours relaxed to within one step of its cost. -/
structure SInv (start goal : Coord) (blocked : List Coord) (st : AState) : Prop where
  qf : ∀ f c, (f, c) ∈ st.openq → (f = 0 ∧ c = start) ∨
      ∃ v, alookup c st.g = some v ∧ scaleW * v + hMu c goal ≤ f
  gstart : alookup start st.g = some 0
  cstart : alookup start st.came = some none
  cameOnlyStart : ∀ c, alookup c st.came = some none → c = start
  domSync : ∀ c, (alookup c st.g).isSome ↔ (alookup c st.came).isSome
  link : ∀ c pc, alookup c st.came = some (some pc) →
      c ∈ nbrs pc ∧ c ∉ blocked ∧
      ∃ vc vp, alookup c st.g = some vc ∧ alookup pc st.g = some vp ∧ vp < vc
  notBlocked : ∀ c, (alookup c st.g).isSome → c = start ∨ c ∉ blocked
  aligned : ∀ c, (alookup c st.g).isSome → LatticeAligned start c
  settled : ∀ c v, alookup c st.g = some v →
      (∃ f, (f, c) ∈ st.openq ∧ f ≤ scaleW * v + hMu c goal) ∨
      (∀ nb ∈ nbrs c, nb ∉ blocked → ∃ w, alookup nb st.g = some w ∧ w ≤ v + 1)
  gBound : ∀ c v, alookup c st.g = some v → v ≤ st.came.length

/-- The invariant holding midway through the expansion of `cur`: like
`SInv`, but the `settled` obligation for `cur` itself is deferred until the
whole neighbour loop has run. -/
structure MidInv (start goal : Coord) (blocked : List Coord) (cur : Coord) (vcur : ℕ)
    (st : AState) : Prop where
  qf : ∀ f c, (f, c) ∈ st.openq → (f = 0 ∧ c = start) ∨
      ∃ v, alookup c st.g = some v ∧ scaleW * v + hMu c goal ≤ f
  gstart : alookup start st.g = some 0
  cstart : alookup start st.came = some none
  cameOnlyStart : ∀ c, alookup c st.came = some none → c = start
  domSync : ∀ c, (alookup c st.g).isSome ↔ (alookup c st.came).isSome
  link : ∀ c pc, alookup c st.came = some (some pc) →
      c ∈ nbrs pc ∧ c ∉ blocked ∧
      ∃ vc vp, alookup c st.g = some vc ∧ alookup pc st.g = some vp ∧ vp < vc
  notBlocked : ∀ c, (alookup c st.g).isSome → c = start ∨ c ∉ blocked
  aligned : ∀ c, (alookup c st.g).isSome → LatticeAligned start c
  settledX : ∀ c v, alookup c st.g = some v → c = cur ∨
      (∃ f, (f, c) ∈ st.openq ∧ f ≤ scaleW * v + hMu c goal) ∨
      (∀ nb ∈ nbrs c, nb ∉ blocked → ∃ w, alookup nb st.g = some w ∧ w ≤ v + 1)
  gBound : ∀ c v, alookup c st.g = some v → v ≤ st.came.length
  curg : alookup cur st.g = some vcur

/-- Frontier invariant for unreachable-goal arguments: no frontier cell is
the goal, and every frontier cell is the start or unblocked. -/
def QInv (start goal : Coord) (blocked : List Coord) (st : AState) : Prop :=
  ∀ f c, (f, c) ∈ st.openq → c ≠ goal ∧ (c = start ∨ c ∉ blocked)

/-- All cells whose scaled Manhattan distance to the goal is within the
priority budget `scaleW * D`: a finite box that every usefully-keyed
frontier entry stays inside.  Used to measure the remaining work of a
search towards an aligned goal. -/
def ballFinset (goal : Coord) (D : ℕ) : Finset Coord :=
  Finset.Icc (goal.1 - (scaleW * D : ℕ), goal.2 - (scaleW * D : ℕ))
    (goal.1 + (scaleW * D : ℕ), goal.2 + (scaleW * D : ℕ))

/-- Remaining-work weight of one cell: undiscovered cells weigh `D + 2`,
discovered cells weigh their (capped) cost — every relaxation push
strictly lowers the weight of its target cell. -/
def wCell (D : ℕ) (gt : List (Coord × ℕ)) (c : Coord) : ℕ :=
  match alookup c gt with
  | none => D + 2
  | some v => min v (D + 2)

/-- Number of frontier entries whose key is within the budget `B`. -/
def countQ (B : ℕ) (q : List Entry) : ℕ :=
  (q.filter (fun e => decide (e.1 ≤ B))).length

/-- The termination measure: budgeted frontier entries plus the summed
cell weights over the goal's ball.  Every loop iteration that expands a
cell strictly decreases it (with an empty blocked set and aligned goal). -/
def phiMeasure (goal : Coord) (D : ℕ) (st : AState) : ℕ :=
  countQ (scaleW * D) st.openq + Finset.sum (ballFinset goal D) (wCell D st.g)

/-- Whenever the goal has a recorded cost, the frontier holds an entry for
the goal whose key is within the scaled cost (goal entries are only
consumed by the returning branch of the loop). -/
def GoalEntryInv (goal : Coord) (st : AState) : Prop :=
  ∀ v, alookup goal st.g = some v → ∃ f, (f, goal) ∈ st.openq ∧ f ≤ scaleW * v

/-! ### Basic facts about the entry order and the queue -/

theorem entryLe_refl (e : Entry) : entryLe e e :=
  Or.inr ⟨rfl, Or.inr ⟨rfl, le_refl _⟩⟩

theorem entryLe_trans {a b c : Entry} (h1 : entryLe a b) (h2 : entryLe b c) : entryLe a c := by
  obtain ⟨f1, x1, y1⟩ := a
  obtain ⟨f2, x2, y2⟩ := b
  obtain ⟨f3, x3, y3⟩ := c
  unfold entryLe at *
  simp only at *
  omega

theorem entryLe_total (a b : Entry) : entryLe a b ∨ entryLe b a := by
  obtain ⟨f1, x1, y1⟩ := a
  obtain ⟨f2, x2, y2⟩ := b
  unfold entryLe
  simp only
  omega

theorem entryLe_antisymm {a b : Entry} (h1 : entryLe a b) (h2 : entryLe b a) : a = b := by
  obtain ⟨f1, x1, y1⟩ := a
  obtain ⟨f2, x2, y2⟩ := b
  unfold entryLe at *
  simp only [Prod.mk.injEq] at *
  omega

theorem entryLe_fst {a b : Entry} (h : entryLe a b) : a.1 ≤ b.1 := by
  obtain ⟨f1, x1, y1⟩ := a
  obtain ⟨f2, x2, y2⟩ := b
  unfold entryLe at h
  simp only at h
  omega

theorem popMin_eq_none {l : List Entry} : popMin l = none ↔ l = [] := by
  cases l with
  | nil => simp [popMin]
  | cons e es =>
    simp only [popMin]
    cases h : popMin es with
    | none => simp
    | some me =>
      obtain ⟨m, rest⟩ := me
      by_cases hle : entryLe e m <;> simp [hle]

theorem popMin_mem {l : List Entry} {m : Entry} {r : List Entry}
    (h : popMin l = some (m, r)) : m ∈ l := by
  induction l generalizing m r with
  | nil => simp [popMin] at h
  | cons e es ih =>
    simp only [popMin] at h
    cases hes : popMin es with
    | none =>
      rw [hes] at h
      dsimp only at h
      simp only [Option.some.injEq, Prod.mk.injEq] at h
      simp [h.1.symm]
    | some me =>
      obtain ⟨m2, rest2⟩ := me
      rw [hes] at h
      dsimp only at h
      by_cases hle : entryLe e m2
      · rw [if_pos hle] at h
        simp only [Option.some.injEq, Prod.mk.injEq] at h
        simp [h.1.symm]
      · rw [if_neg hle] at h
        simp only [Option.some.injEq, Prod.mk.injEq] at h
        exact List.mem_cons_of_mem _ (h.1 ▸ ih hes)

theorem popMin_min {l : List Entry} {m : Entry} {r : List Entry}
    (h : popMin l = some (m, r)) : ∀ x ∈ l, entryLe m x := by
  induction l generalizing m r with
  | nil => simp [popMin] at h
  | cons e es ih =>
    simp only [popMin] at h
    cases hes : popMin es with
    | none =>
      have hnil : es = [] := popMin_eq_none.mp hes
      rw [hes] at h
      dsimp only at h
      simp only [Option.some.injEq, Prod.mk.injEq] at h
      subst hnil
      intro x hx
      simp only [List.mem_singleton] at hx
      subst hx
      exact h.1 ▸ entryLe_refl x
    | some me =>
      obtain ⟨m2, rest2⟩ := me
      rw [hes] at h
      dsimp only at h
      by_cases hle : entryLe e m2
      · rw [if_pos hle] at h
        simp only [Option.some.injEq, Prod.mk.injEq] at h
        intro x hx
        rcases List.mem_cons.mp hx with hx | hx
        · rw [hx, ← h.1]
          exact entryLe_refl e
        · exact h.1 ▸ entryLe_trans hle (ih hes x hx)
      · rw [if_neg hle] at h
        simp only [Option.some.injEq, Prod.mk.injEq] at h
        intro x hx
        rcases List.mem_cons.mp hx with hx | hx
        · rw [hx, ← h.1]
          rcases entryLe_total m2 e with hmx | hxm
          · exact hmx
          · exact absurd hxm hle
        · exact h.1 ▸ ih hes x hx

theorem popMin_erase {l : List Entry} {m : Entry} {r : List Entry}
    (h : popMin l = some (m, r)) : r = l.erase m := by
  induction l generalizing m r with
  | nil => simp [popMin] at h
  | cons e es ih =>
    simp only [popMin] at h
    cases hes : popMin es with
    | none =>
      have hnil : es = [] := popMin_eq_none.mp hes
      rw [hes] at h
      dsimp only at h
      simp only [Option.some.injEq, Prod.mk.injEq] at h
      subst hnil
      rw [← h.1, h.2.symm]
      simp
    | some me =>
      obtain ⟨m2, rest2⟩ := me
      rw [hes] at h
      dsimp only at h
      by_cases hle : entryLe e m2
      · rw [if_pos hle] at h
        simp only [Option.some.injEq, Prod.mk.injEq] at h
        rw [← h.1, ← h.2, List.erase_cons_head]
      · rw [if_neg hle] at h
        simp only [Option.some.injEq, Prod.mk.injEq] at h
        have hne : e ≠ m := by
          intro he
          exact hle (he ▸ h.1 ▸ entryLe_refl m2)
        rw [← h.2, ← h.1]
        have : (e :: es).erase m2 = e :: es.erase m2 :=
          List.erase_cons_tail (by simpa using fun hc => hne (h.1 ▸ hc))
        rw [this, ih hes]

theorem popMin_perm {l : List Entry} {m : Entry} {r : List Entry}
    (h : popMin l = some (m, r)) : l.Perm (m :: r) := by
  induction l generalizing m r with
  | nil => simp [popMin] at h
  | cons e es ih =>
    simp only [popMin] at h
    cases hes : popMin es with
    | none =>
      have hnil := popMin_eq_none.mp hes
      rw [hes] at h
      dsimp only at h
      simp only [Option.some.injEq, Prod.mk.injEq] at h
      rw [← h.1, ← h.2, hnil]
    | some mr =>
      obtain ⟨m2, rest2⟩ := mr
      rw [hes] at h
      dsimp only at h
      by_cases hle : entryLe e m2
      · rw [if_pos hle] at h
        simp only [Option.some.injEq, Prod.mk.injEq] at h
        rw [← h.1, ← h.2]
      · rw [if_neg hle] at h
        simp only [Option.some.injEq, Prod.mk.injEq] at h
        rw [← h.1, ← h.2]
        exact ((ih hes).cons e).trans (List.Perm.swap m2 e rest2)

theorem popMin_rest_mem {l : List Entry} {m x : Entry} {r : List Entry}
    (h : popMin l = some (m, r)) (hx : x ∈ r) : x ∈ l := by
  rw [popMin_erase h] at hx
  exact List.mem_of_mem_erase hx

theorem popMin_rest_of_mem {l : List Entry} {m x : Entry} {r : List Entry}
    (h : popMin l = some (m, r)) (hx : x ∈ l) (hne : x ≠ m) : x ∈ r := by
  rw [popMin_erase h]
  exact (List.mem_erase_of_ne hne).mpr hx

/-! ### Lookup lemmas -/

theorem alookup_cons {β : Type} (c k : Coord) (v : β) (t : List (Coord × β)) :
    alookup c ((k, v) :: t) = if c = k then some v else alookup c t := rfl

theorem alookup_cons_self {β : Type} (k : Coord) (v : β) (t : List (Coord × β)) :
    alookup k ((k, v) :: t) = some v := by simp [alookup]

theorem alookup_cons_ne {β : Type} {c k : Coord} (v : β) (t : List (Coord × β))
    (h : c ≠ k) : alookup c ((k, v) :: t) = alookup c t := by simp [alookup, h]

theorem alookup_isSome_iff {β : Type} (c : Coord) (l : List (Coord × β)) :
    (alookup c l).isSome ↔ c ∈ l.map Prod.fst := by
  induction l with
  | nil => simp [alookup]
  | cons kv t ih =>
    obtain ⟨k, v⟩ := kv
    by_cases h : c = k
    · subst h
      simp [alookup_cons_self]
    · rw [alookup_cons_ne v t h]
      simp [ih, h]

/-! ### Neighbour and distance arithmetic -/

theorem nbrs_ne {c nb : Coord} (h : nb ∈ nbrs c) : nb ≠ c := by
  obtain ⟨x, y⟩ := c
  obtain ⟨a, b⟩ := nb
  simp only [nbrs, List.mem_cons, List.mem_singleton, Prod.mk.injEq, List.not_mem_nil,
    or_false] at h
  intro he
  simp only [Prod.mk.injEq] at he
  omega

theorem nbrs_symm {c nb : Coord} (h : nb ∈ nbrs c) : c ∈ nbrs nb := by
  obtain ⟨x, y⟩ := c
  obtain ⟨a, b⟩ := nb
  simp only [nbrs, List.mem_cons, List.mem_singleton, Prod.mk.injEq, List.not_mem_nil,
    or_false] at h ⊢
  omega

theorem aligned_self (s : Coord) : LatticeAligned s s :=
  ⟨0, 0, by simp⟩

theorem aligned_step {s c nb : Coord} (hc : LatticeAligned s c) (h : nb ∈ nbrs c) :
    LatticeAligned s nb := by
  obtain ⟨i, j, hij⟩ := hc
  obtain ⟨x, y⟩ := c
  obtain ⟨a, b⟩ := nb
  simp only [Prod.mk.injEq] at hij
  simp only [nbrs, List.mem_cons, List.mem_singleton, Prod.mk.injEq, List.not_mem_nil,
    or_false] at h
  rcases h with ⟨ha, hb⟩ | ⟨ha, hb⟩ | ⟨ha, hb⟩ | ⟨ha, hb⟩
  · exact ⟨i + 1, j, by simp only [Prod.mk.injEq]; omega⟩
  · exact ⟨i - 1, j, by simp only [Prod.mk.injEq]; omega⟩
  · exact ⟨i, j + 1, by simp only [Prod.mk.injEq]; omega⟩
  · exact ⟨i, j - 1, by simp only [Prod.mk.injEq]; omega⟩

theorem hMu_self (c : Coord) : hMu c c = 0 := by
  simp [hMu]

theorem hMu_step_le {a b t : Coord} (h : isStep a b) : hMu a t ≤ hMu b t + 1000 := by
  obtain ⟨x, y⟩ := a
  obtain ⟨u, w⟩ := b
  obtain ⟨p, q⟩ := t
  simp only [isStep, nbrs, List.mem_cons, List.mem_singleton, Prod.mk.injEq,
    List.not_mem_nil, or_false] at h
  simp only [hMu]
  omega

theorem isStep_oneAxis {a b : Coord} (h : isStep a b) : oneAxisStep a b := by
  obtain ⟨x, y⟩ := a
  obtain ⟨u, w⟩ := b
  simp only [isStep, nbrs, List.mem_cons, List.mem_singleton, Prod.mk.injEq,
    List.not_mem_nil, or_false] at h
  simp only [oneAxisStep]
  omega

/-! ### Reconstruction lemmas -/

theorem backWalk_ne_nil {came : List (Coord × Option Coord)} {n : ℕ} {c : Coord}
    {l : List Coord} (h : backWalk came n c = some l) : l ≠ [] := by
  cases n with
  | zero => simp [backWalk] at h
  | succ n =>
    simp only [backWalk] at h
    cases hc : alookup c came with
    | none => rw [hc] at h; simp at h
    | some o =>
      rw [hc] at h
      cases o with
      | none =>
        dsimp only at h
        simp only [Option.some.injEq] at h
        simp [← h]
      | some p =>
        dsimp only at h
        cases hb : backWalk came n p with
        | none => rw [hb] at h; simp at h
        | some l2 =>
          rw [hb] at h
          simp only [Option.map_some', Option.some.injEq] at h
          simp [← h]

/-! ### Shape of the loop: step inversions and the run / iterate link -/

theorem astarStep_empty_inv {goal : Coord} {blocked : List Coord} {st : AState}
    (h : astarStep goal blocked st = .emptyFrontier) : popMin st.openq = none := by
  unfold astarStep at h
  cases hp : popMin st.openq with
  | none => rfl
  | some er =>
    obtain ⟨⟨f0, cur⟩, rest⟩ := er
    rw [hp] at h
    dsimp only at h
    by_cases hc : cur = goal
    · rw [if_pos hc] at h; exact StepOut.noConfusion h
    · rw [if_neg hc] at h; exact StepOut.noConfusion h

theorem astarStep_goal_inv {goal : Coord} {blocked : List Coord} {st : AState}
    {po : Option (List Coord)} (h : astarStep goal blocked st = .goalPopped po) :
    ∃ f0 rest, popMin st.openq = some ((f0, goal), rest) ∧
      po = (backWalk st.came (st.came.length + 1) goal).map List.reverse := by
  unfold astarStep at h
  cases hp : popMin st.openq with
  | none => rw [hp] at h; exact StepOut.noConfusion h
  | some er =>
    obtain ⟨⟨f0, cur⟩, rest⟩ := er
    rw [hp] at h
    dsimp only at h
    by_cases hc : cur = goal
    · subst hc
      rw [if_pos rfl] at h
      simp only [StepOut.goalPopped.injEq] at h
      exact ⟨f0, rest, rfl, h.symm⟩
    · rw [if_neg hc] at h; exact StepOut.noConfusion h

theorem astarStep_more_inv {goal : Coord} {blocked : List Coord} {st st2 : AState}
    (h : astarStep goal blocked st = .more st2) :
    ∃ f0 cur rest, popMin st.openq = some ((f0, cur), rest) ∧ cur ≠ goal ∧
      st2 = expand goal blocked cur rest st := by
  unfold astarStep at h
  cases hp : popMin st.openq with
  | none => rw [hp] at h; exact StepOut.noConfusion h
  | some er =>
    obtain ⟨⟨f0, cur⟩, rest⟩ := er
    rw [hp] at h
    dsimp only at h
    by_cases hc : cur = goal
    · rw [if_pos hc] at h; exact StepOut.noConfusion h
    · rw [if_neg hc] at h
      simp only [StepOut.more.injEq] at h
      exact ⟨f0, cur, rest, rfl, hc, h.symm⟩

theorem goalPopped_ne_nil {goal : Coord} {blocked : List Coord} {st : AState}
    {p : List Coord} (h : astarStep goal blocked st = .goalPopped (some p)) : p ≠ [] := by
  obtain ⟨f0, rest, _, hbw⟩ := astarStep_goal_inv h
  cases hb : backWalk st.came (st.came.length + 1) goal with
  | none => rw [hb] at hbw; simp at hbw
  | some l0 =>
    rw [hb] at hbw
    simp only [Option.map_some', Option.some.injEq] at hbw
    have : l0 ≠ [] := backWalk_ne_nil hb
    intro hp
    rw [hp] at hbw
    exact this (by simpa using hbw.symm)

theorem run_cases {goal : Coord} {blocked : List Coord} :
    ∀ (fuel : ℕ) (st : AState) (p : List Coord), astarFuel goal blocked fuel st = some p →
    ∃ k st2, k < fuel ∧ iterStep goal blocked k st = some st2 ∧
      ((astarStep goal blocked st2 = .emptyFrontier ∧ p = []) ∨
        astarStep goal blocked st2 = .goalPopped (some p)) := by
  intro fuel
  induction fuel with
  | zero => intro st p h; simp [astarFuel] at h
  | succ n ih =>
    intro st p h
    rw [show astarFuel goal blocked (n + 1) st =
      (match astarStep goal blocked st with
        | .emptyFrontier => some []
        | .goalPopped p => p
        | .more st2 => astarFuel goal blocked n st2) from rfl] at h
    cases hstep : astarStep goal blocked st with
    | emptyFrontier =>
      rw [hstep] at h
      dsimp only at h
      simp only [Option.some.injEq] at h
      exact ⟨0, st, by omega, rfl, Or.inl ⟨hstep, h.symm⟩⟩
    | goalPopped po =>
      rw [hstep] at h
      dsimp only at h
      exact ⟨0, st, by omega, rfl, Or.inr (h ▸ hstep)⟩
    | more st2 =>
      rw [hstep] at h
      dsimp only at h
      obtain ⟨k, st3, hk, hit, hres⟩ := ih st2 p h
      refine ⟨k + 1, st3, by omega, ?_, hres⟩
      rw [show iterStep goal blocked (k + 1) st =
        (match astarStep goal blocked st with
          | .more st2 => iterStep goal blocked k st2
          | _ => none) from rfl, hstep]
      exact hit

theorem iter_run {goal : Coord} {blocked : List Coord} :
    ∀ (k : ℕ) (st st2 : AState), iterStep goal blocked k st = some st2 →
    ∀ fuel, k < fuel →
    astarFuel goal blocked fuel st = astarFuel goal blocked (fuel - k) st2 := by
  intro k
  induction k with
  | zero =>
    intro st st2 h fuel _
    simp only [iterStep, Option.some.injEq] at h
    rw [h]
    simp
  | succ n ih =>
    intro st st2 h fuel hk
    rw [show iterStep goal blocked (n + 1) st =
      (match astarStep goal blocked st with
        | .more st2 => iterStep goal blocked n st2
        | _ => none) from rfl] at h
    cases hstep : astarStep goal blocked st with
    | emptyFrontier => rw [hstep] at h; simp at h
    | goalPopped po => rw [hstep] at h; simp at h
    | more stm =>
      rw [hstep] at h
      dsimp only at h
      obtain ⟨f2, hf2⟩ : ∃ f2, fuel = f2 + 1 := ⟨fuel - 1, by omega⟩
      subst hf2
      rw [show astarFuel goal blocked (f2 + 1) st =
        (match astarStep goal blocked st with
          | .emptyFrontier => some []
          | .goalPopped p => p
          | .more st2 => astarFuel goal blocked f2 st2) from rfl, hstep]
      dsimp only
      rw [ih stm st2 h f2 (by omega)]
      congr 1
      omega

theorem iter_preserve {goal : Coord} {blocked : List Coord} (P : AState → Prop)
    (hP : ∀ st st2, P st → astarStep goal blocked st = .more st2 → P st2) :
    ∀ (k : ℕ) (st st2 : AState), P st → iterStep goal blocked k st = some st2 → P st2 := by
  intro k
  induction k with
  | zero =>
    intro st st2 hp h
    simp only [iterStep, Option.some.injEq] at h
    exact h ▸ hp
  | succ n ih =>
    intro st st2 hp h
    rw [show iterStep goal blocked (n + 1) st =
      (match astarStep goal blocked st with
        | .more st2 => iterStep goal blocked n st2
        | _ => none) from rfl] at h
    cases hstep : astarStep goal blocked st with
    | emptyFrontier => rw [hstep] at h; simp at h
    | goalPopped po => rw [hstep] at h; simp at h
    | more stm =>
      rw [hstep] at h
      dsimp only at h
      exact ih stm st2 (hP st stm hp hstep) h

/-! ### Case analysis of a single relaxation -/

theorem relaxOne_cases (goal : Coord) (blocked : List Coord) (cur : Coord)
    (st : AState) (nb : Coord) :
    (relaxOne goal blocked cur st nb = st ∧
      (nb ∈ blocked ∨ ∃ v, alookup nb st.g = some v ∧ v ≤ (alookup cur st.g).getD 0 + 1)) ∨
    (relaxOne goal blocked cur st nb =
        pushState goal cur nb ((alookup cur st.g).getD 0 + 1) st ∧
      nb ∉ blocked ∧ ∀ v, alookup nb st.g = some v → (alookup cur st.g).getD 0 + 1 < v) := by
  by_cases hb : nb ∈ blocked
  · exact Or.inl ⟨by simp [relaxOne, hb], Or.inl hb⟩
  · cases hnb : alookup nb st.g with
    | none =>
      refine Or.inr ⟨by simp [relaxOne, hb, hnb], hb, ?_⟩
      intro v hv
      exact Option.noConfusion hv
    | some v =>
      by_cases hlt : (alookup cur st.g).getD 0 + 1 < v
      · refine Or.inr ⟨by simp [relaxOne, hb, hnb, hlt], hb, ?_⟩
        intro v2 hv2
        injection hv2 with he
        omega
      · exact Or.inl ⟨by simp [relaxOne, hb, hnb, hlt], Or.inr ⟨v, rfl, by omega⟩⟩

theorem relaxOne_g_mono {goal : Coord} {blocked : List Coord} {cur : Coord}
    {st : AState} {nb : Coord} {c : Coord} {v : ℕ} (h : alookup c st.g = some v) :
    ∃ v2, alookup c (relaxOne goal blocked cur st nb).g = some v2 ∧ v2 ≤ v := by
  rcases relaxOne_cases goal blocked cur st nb with ⟨heq, _⟩ | ⟨heq, _, himp⟩
  · exact ⟨v, by rw [heq]; exact h, le_refl v⟩
  · rw [heq]
    by_cases hc : c = nb
    · subst hc
      have := himp v h
      exact ⟨(alookup cur st.g).getD 0 + 1, alookup_cons_self _ _ _, by omega⟩
    · exact ⟨v, by rw [pushState]; exact (alookup_cons_ne _ _ hc).trans h, le_refl v⟩

theorem relaxOne_queue_sub {goal : Coord} {blocked : List Coord} {cur : Coord}
    {st : AState} {nb : Coord} {e : Entry} (h : e ∈ st.openq) :
    e ∈ (relaxOne goal blocked cur st nb).openq := by
  rcases relaxOne_cases goal blocked cur st nb with ⟨heq, _⟩ | ⟨heq, _, _⟩
  · rw [heq]
    exact h
  · rw [heq]
    exact List.mem_cons_of_mem _ h

theorem relaxOne_queue_cases {goal : Coord} {blocked : List Coord} {cur : Coord}
    {st : AState} {nb : Coord} {e : Entry}
    (h : e ∈ (relaxOne goal blocked cur st nb).openq) :
    e ∈ st.openq ∨
      (nb ∉ blocked ∧ e = (scaleW * ((alookup cur st.g).getD 0 + 1) + hMu nb goal, nb)) := by
  rcases relaxOne_cases goal blocked cur st nb with ⟨heq, _⟩ | ⟨heq, hnb, _⟩
  · exact Or.inl (heq ▸ h)
  · rw [heq] at h
    rcases List.mem_cons.mp h with hh | hh
    · exact Or.inr ⟨hnb, hh⟩
    · exact Or.inl hh

theorem relaxOne_after {goal : Coord} {blocked : List Coord} {cur : Coord}
    {st : AState} {nb : Coord} {vcur : ℕ} (hcur : alookup cur st.g = some vcur)
    (hnb2 : nb ∉ blocked) :
    ∃ w, alookup nb (relaxOne goal blocked cur st nb).g = some w ∧ w ≤ vcur + 1 := by
  have hgetD : (alookup cur st.g).getD 0 = vcur := by rw [hcur]; rfl
  rcases relaxOne_cases goal blocked cur st nb with ⟨heq, hc⟩ | ⟨heq, _, _⟩
  · rcases hc with hb | ⟨v, hv, hle⟩
    · exact absurd hb hnb2
    · exact ⟨v, by rw [heq]; exact hv, by omega⟩
  · rw [heq]
    exact ⟨(alookup cur st.g).getD 0 + 1, alookup_cons_self _ _ _, by omega⟩

theorem relaxOne_cur_g {goal : Coord} {blocked : List Coord} {cur : Coord}
    {st : AState} {nb : Coord} (hne : nb ≠ cur) :
    alookup cur (relaxOne goal blocked cur st nb).g = alookup cur st.g := by
  rcases relaxOne_cases goal blocked cur st nb with ⟨heq, _⟩ | ⟨heq, _, _⟩
  · rw [heq]
  · rw [heq]
    exact alookup_cons_ne _ _ (fun hc => hne hc.symm)

/-! ### Invariant preservation through one relaxation -/

theorem mid_push {start goal : Coord} {blocked : List Coord} {cur : Coord} {vcur : ℕ}
    {st : AState} {nb : Coord} (h : MidInv start goal blocked cur vcur st)
    (hnb : nb ∈ nbrs cur) (hnb2 : nb ∉ blocked)
    (himp : ∀ v, alookup nb st.g = some v → vcur + 1 < v) :
    MidInv start goal blocked cur vcur (pushState goal cur nb (vcur + 1) st) := by
  have hnc : nb ≠ cur := nbrs_ne hnb
  have hnbs : nb ≠ start := by
    intro he
    have := himp 0 (he ▸ h.gstart)
    omega
  refine ⟨?_, ?_, ?_, ?_, ?_, ?_, ?_, ?_, ?_, ?_, ?_⟩
  · -- qf
    intro f c hmem
    rcases List.mem_cons.mp hmem with hh | hh
    · injection hh with hf hc
      subst hc
      subst hf
      exact Or.inr ⟨vcur + 1, alookup_cons_self _ _ _, le_refl _⟩
    · rcases h.qf f c hh with hl | ⟨v, hv, hb⟩
      · exact Or.inl hl
      · by_cases hc : c = nb
        · subst hc
          have hlt := himp v hv
          refine Or.inr ⟨vcur + 1, alookup_cons_self _ _ _, ?_⟩
          calc scaleW * (vcur + 1) + hMu c goal
              ≤ scaleW * v + hMu c goal := by
                have : vcur + 1 ≤ v := by omega
                exact Nat.add_le_add_right (Nat.mul_le_mul_left _ this) _
            _ ≤ f := hb
        · exact Or.inr ⟨v, (alookup_cons_ne _ _ hc).trans hv, hb⟩
  · -- gstart
    exact (alookup_cons_ne _ _ (fun he => hnbs he.symm)).trans h.gstart
  · -- cstart
    exact (alookup_cons_ne _ _ (fun he => hnbs he.symm)).trans h.cstart
  · -- cameOnlyStart
    intro c hc
    by_cases hcn : c = nb
    · subst hcn
      rw [pushState, alookup_cons_self] at hc
      exact Option.noConfusion (Option.some.inj hc)
    · rw [pushState, alookup_cons_ne _ _ hcn] at hc
      exact h.cameOnlyStart c hc
  · -- domSync
    intro c
    by_cases hcn : c = nb
    · subst hcn
      simp [pushState, alookup_cons_self]
    · rw [pushState]
      show (alookup c ((nb, vcur + 1) :: st.g)).isSome ↔
        (alookup c ((nb, some cur) :: st.came)).isSome
      rw [alookup_cons_ne _ _ hcn, alookup_cons_ne _ _ hcn]
      exact h.domSync c
  · -- link
    intro c pc hc
    by_cases hcn : c = nb
    · subst hcn
      rw [pushState, alookup_cons_self] at hc
      have hpc : pc = cur := by
        have := Option.some.inj hc
        exact (Option.some.inj this).symm
      subst hpc
      refine ⟨hnb, hnb2, vcur + 1, vcur, alookup_cons_self _ _ _, ?_, by omega⟩
      rw [pushState]
      exact (alookup_cons_ne _ _ (fun he => hnc he.symm)).trans h.curg
    · rw [pushState, alookup_cons_ne _ _ hcn] at hc
      obtain ⟨hstep, hblk, vc, vp, hvc, hvp, hlt⟩ := h.link c pc hc
      refine ⟨hstep, hblk, vc, ?_⟩
      by_cases hpn : pc = nb
      · subst hpn
        have hlt2 := himp vp hvp
        refine ⟨vcur + 1, ?_, ?_, by omega⟩
        · rw [pushState, alookup_cons_ne _ _ hcn]
          exact hvc
        · rw [pushState]
          exact alookup_cons_self _ _ _
      · exact ⟨vp, by rw [pushState, alookup_cons_ne _ _ hcn]; exact hvc,
          by rw [pushState, alookup_cons_ne _ _ hpn]; exact hvp, hlt⟩
  · -- notBlocked
    intro c hc
    by_cases hcn : c = nb
    · exact Or.inr (hcn ▸ hnb2)
    · rw [pushState, alookup_cons_ne _ _ hcn] at hc
      exact h.notBlocked c hc
  · -- aligned
    intro c hc
    by_cases hcn : c = nb
    · subst hcn
      exact aligned_step (h.aligned cur (by rw [h.curg]; rfl)) hnb
    · rw [pushState, alookup_cons_ne _ _ hcn] at hc
      exact h.aligned c hc
  · -- settledX
    intro c v hc
    by_cases hcn : c = nb
    · subst hcn
      rw [pushState, alookup_cons_self] at hc
      have hv : v = vcur + 1 := (Option.some.inj hc).symm
      refine Or.inr (Or.inl ⟨scaleW * (vcur + 1) + hMu c goal, List.mem_cons_self _ _, ?_⟩)
      rw [hv]
    · rw [pushState, alookup_cons_ne _ _ hcn] at hc
      rcases h.settledX c v hc with hcur | hent | hnbr
      · exact Or.inl hcur
      · obtain ⟨f, hf, hb⟩ := hent
        exact Or.inr (Or.inl ⟨f, List.mem_cons_of_mem _ hf, hb⟩)
      · refine Or.inr (Or.inr ?_)
        intro nb2 hs2 hb2
        obtain ⟨w, hw, hwle⟩ := hnbr nb2 hs2 hb2
        by_cases hn2 : nb2 = nb
        · subst hn2
          have := himp w hw
          exact ⟨vcur + 1, alookup_cons_self _ _ _, by omega⟩
        · exact ⟨w, by rw [pushState, alookup_cons_ne _ _ hn2]; exact hw, hwle⟩
  · -- gBound
    intro c v hc
    have hlen : (pushState goal cur nb (vcur + 1) st).came.length = st.came.length + 1 := rfl
    by_cases hcn : c = nb
    · subst hcn
      rw [pushState, alookup_cons_self] at hc
      have hv : v = vcur + 1 := (Option.some.inj hc).symm
      have := h.gBound cur vcur h.curg
      omega
    · rw [pushState, alookup_cons_ne _ _ hcn] at hc
      have := h.gBound c v hc
      omega
  · -- curg
    rw [pushState]
    exact (alookup_cons_ne _ _ (fun he => hnc he.symm)).trans h.curg

theorem relaxOne_mid {start goal : Coord} {blocked : List Coord} {cur : Coord} {vcur : ℕ}
    {st : AState} {nb : Coord} (hnb : nb ∈ nbrs cur)
    (h : MidInv start goal blocked cur vcur st) :
    MidInv start goal blocked cur vcur (relaxOne goal blocked cur st nb) := by
  have hgetD : (alookup cur st.g).getD 0 + 1 = vcur + 1 := by rw [h.curg]; rfl
  rcases relaxOne_cases goal blocked cur st nb with ⟨heq, _⟩ | ⟨heq, hnb2, himp⟩
  · rw [heq]
    exact h
  · rw [heq, hgetD]
    refine mid_push h hnb hnb2 ?_
    intro v hv
    have := himp v hv
    omega

/-! ### Invariant preservation through the whole neighbour loop -/

theorem fold_mid {start goal : Coord} {blocked : List Coord} {cur : Coord} {vcur : ℕ} :
    ∀ (ns : List Coord) (st : AState), (∀ x ∈ ns, x ∈ nbrs cur) →
    MidInv start goal blocked cur vcur st →
    MidInv start goal blocked cur vcur (ns.foldl (relaxOne goal blocked cur) st) := by
  intro ns
  induction ns with
  | nil => intro st _ h; exact h
  | cons a t ih =>
    intro st hsub h
    exact ih (relaxOne goal blocked cur st a)
      (fun x hx => hsub x (List.mem_cons_of_mem _ hx))
      (relaxOne_mid (hsub a (List.mem_cons_self _ _)) h)

theorem fold_g_mono {goal : Coord} {blocked : List Coord} {cur : Coord} :
    ∀ (ns : List Coord) (st : AState) {c : Coord} {v : ℕ}, alookup c st.g = some v →
    ∃ v2, alookup c (ns.foldl (relaxOne goal blocked cur) st).g = some v2 ∧ v2 ≤ v := by
  intro ns
  induction ns with
  | nil => intro st c v h; exact ⟨v, h, le_refl v⟩
  | cons a t ih =>
    intro st c v h
    obtain ⟨v1, hv1, hle1⟩ :
        ∃ v2, alookup c (relaxOne goal blocked cur st a).g = some v2 ∧ v2 ≤ v :=
      relaxOne_g_mono h
    obtain ⟨v2, hv2, hle2⟩ := ih (relaxOne goal blocked cur st a) hv1
    exact ⟨v2, hv2, le_trans hle2 hle1⟩

theorem fold_queue_sub {goal : Coord} {blocked : List Coord} {cur : Coord} :
    ∀ (ns : List Coord) (st : AState) {e : Entry}, e ∈ st.openq →
    e ∈ (ns.foldl (relaxOne goal blocked cur) st).openq := by
  intro ns
  induction ns with
  | nil => intro st e h; exact h
  | cons a t ih =>
    intro st e h
    exact ih (relaxOne goal blocked cur st a) (relaxOne_queue_sub h)

theorem fold_queue_cases {goal : Coord} {blocked : List Coord} {cur : Coord} :
    ∀ (ns : List Coord) (st : AState) {e : Entry},
    e ∈ (ns.foldl (relaxOne goal blocked cur) st).openq →
    e ∈ st.openq ∨ ∃ nb ∈ ns, nb ∉ blocked ∧ e.2 = nb := by
  intro ns
  induction ns with
  | nil => intro st e h; exact Or.inl h
  | cons a t ih =>
    intro st e h
    rcases ih (relaxOne goal blocked cur st a) h with hh | ⟨nb, hnb, hb, he⟩
    · rcases relaxOne_queue_cases hh with hh2 | ⟨hb, he⟩
      · exact Or.inl hh2
      · exact Or.inr ⟨a, List.mem_cons_self _ _, hb, by rw [he]⟩
    · exact Or.inr ⟨nb, List.mem_cons_of_mem _ hnb, hb, he⟩

theorem fold_nbr_bound {start goal : Coord} {blocked : List Coord} {cur : Coord} {vcur : ℕ} :
    ∀ (ns : List Coord) (st : AState), MidInv start goal blocked cur vcur st →
    (∀ x ∈ ns, x ∈ nbrs cur) → ∀ nb ∈ ns, nb ∉ blocked →
    ∃ w, alookup nb (ns.foldl (relaxOne goal blocked cur) st).g = some w ∧ w ≤ vcur + 1 := by
  intro ns
  induction ns with
  | nil => intro st _ _ nb h; exact absurd h (List.not_mem_nil nb)
  | cons a t ih =>
    intro st hmid hsub nb hmem hblk
    rcases List.mem_cons.mp hmem with hh | hh
    · subst hh
      obtain ⟨w, hw, hwle⟩ := relaxOne_after hmid.curg hblk
      obtain ⟨w2, hw2, hle2⟩ := fold_g_mono t (relaxOne goal blocked cur st nb) hw
      exact ⟨w2, hw2, by omega⟩
    · exact ih (relaxOne goal blocked cur st a)
        (relaxOne_mid (hsub a (List.mem_cons_self _ _)) hmid)
        (fun x hx => hsub x (List.mem_cons_of_mem _ hx)) nb hh hblk

/-! ### The invariant holds initially and is preserved by the loop -/

theorem inv_init (start goal : Coord) (blocked : List Coord) :
    SInv start goal blocked (initState start) := by
  refine ⟨?_, alookup_cons_self _ _ _, alookup_cons_self _ _ _, ?_, ?_, ?_, ?_, ?_, ?_, ?_⟩
  · intro f c hmem
    simp only [initState, List.mem_singleton, Prod.mk.injEq] at hmem
    exact Or.inl ⟨hmem.1, hmem.2⟩
  · intro c hc
    simp only [initState] at hc
    by_cases h : c = start
    · exact h
    · rw [alookup_cons_ne _ _ h] at hc
      exact Option.noConfusion hc
  · intro c
    simp only [initState]
    by_cases h : c = start
    · subst h
      simp [alookup_cons_self]
    · rw [alookup_cons_ne _ _ h, alookup_cons_ne _ _ h]
      simp [alookup]
  · intro c pc hc
    simp only [initState] at hc
    by_cases h : c = start
    · subst h
      rw [alookup_cons_self] at hc
      exact Option.noConfusion (Option.some.inj hc)
    · rw [alookup_cons_ne _ _ h] at hc
      exact Option.noConfusion hc
  · intro c hc
    simp only [initState] at hc
    by_cases h : c = start
    · exact Or.inl h
    · rw [alookup_cons_ne _ _ h] at hc
      simp [alookup] at hc
  · intro c hc
    simp only [initState] at hc
    by_cases h : c = start
    · rw [h]
      exact aligned_self start
    · rw [alookup_cons_ne _ _ h] at hc
      simp [alookup] at hc
  · intro c v hc
    simp only [initState] at hc
    by_cases h : c = start
    · subst h
      rw [alookup_cons_self] at hc
      have hv : v = 0 := (Option.some.inj hc).symm
      refine Or.inl ⟨0, List.mem_cons_self _ _, ?_⟩
      rw [hv]
      omega
    · rw [alookup_cons_ne _ _ h] at hc
      exact Option.noConfusion hc
  · intro c v hc
    simp only [initState] at hc
    by_cases h : c = start
    · subst h
      rw [alookup_cons_self] at hc
      have hv : v = 0 := (Option.some.inj hc).symm
      simp [initState, hv]
    · rw [alookup_cons_ne _ _ h] at hc
      exact Option.noConfusion hc

theorem step_preserves {start goal : Coord} {blocked : List Coord} {st st2 : AState}
    (hInv : SInv start goal blocked st)
    (hstep : astarStep goal blocked st = .more st2) : SInv start goal blocked st2 := by
  obtain ⟨f0, cur, rest, hpop, hne, hex⟩ := astarStep_more_inv hstep
  have hmem := popMin_mem hpop
  obtain ⟨vcur, hcur⟩ : ∃ vcur, alookup cur st.g = some vcur := by
    rcases hInv.qf f0 cur hmem with ⟨_, hc⟩ | ⟨v, hv, _⟩
    · exact ⟨0, hc ▸ hInv.gstart⟩
    · exact ⟨v, hv⟩
  have hmid1 : MidInv start goal blocked cur vcur ⟨rest, st.came, st.g⟩ := by
    refine ⟨?_, hInv.gstart, hInv.cstart, hInv.cameOnlyStart, hInv.domSync, hInv.link,
      hInv.notBlocked, hInv.aligned, ?_, hInv.gBound, hcur⟩
    · intro f c hm
      exact hInv.qf f c (popMin_rest_mem hpop hm)
    · intro c v hc
      rcases hInv.settled c v hc with ⟨f, hf, hb⟩ | hnbr
      · by_cases hfe : ((f, c) : Entry) = (f0, cur)
        · have : c = cur := by
            injection hfe with h1 h2
          exact Or.inl this
        · exact Or.inr (Or.inl ⟨f, popMin_rest_of_mem hpop hf hfe, hb⟩)
      · exact Or.inr (Or.inr hnbr)
  have hmid2 : MidInv start goal blocked cur vcur
      ((nbrs cur).foldl (relaxOne goal blocked cur) ⟨rest, st.came, st.g⟩) :=
    fold_mid (nbrs cur) _ (fun x hx => hx) hmid1
  rw [hex]
  show SInv start goal blocked ((nbrs cur).foldl (relaxOne goal blocked cur) ⟨rest, st.came, st.g⟩)
  refine ⟨hmid2.qf, hmid2.gstart, hmid2.cstart, hmid2.cameOnlyStart, hmid2.domSync,
    hmid2.link, hmid2.notBlocked, hmid2.aligned, ?_, hmid2.gBound⟩
  intro c v hc
  rcases hmid2.settledX c v hc with hceq | hent | hnbr
  · have hveq : v = vcur := by
      rw [hceq, hmid2.curg] at hc
      exact (Option.some.inj hc).symm
    refine Or.inr ?_
    intro nb hn hb
    rw [hceq] at hn
    obtain ⟨w, hw, hwle⟩ := fold_nbr_bound (nbrs cur) _ hmid1 (fun x hx => hx) nb hn hb
    exact ⟨w, hw, by omega⟩
  · exact Or.inl hent
  · exact Or.inr hnbr

theorem inv_iter {start goal : Coord} {blocked : List Coord} :
    ∀ (k : ℕ) (st st2 : AState), SInv start goal blocked st →
    iterStep goal blocked k st = some st2 → SInv start goal blocked st2 :=
  iter_preserve (SInv start goal blocked) (fun _ _ hp hs => step_preserves hp hs)

/-! ### What reconstruction yields in an invariant state -/

theorem backWalk_ok {start goal : Coord} {blocked : List Coord} {st : AState}
    (hInv : SInv start goal blocked st) :
    ∀ (v : ℕ) (c : Coord), alookup c st.g = some v → ∀ n, v < n →
    ∃ l, backWalk st.came n c = some l ∧ l ≠ [] ∧ l.head? = some c ∧
      l.getLast? = some start ∧ l.length ≤ v + 1 ∧
      List.Chain' (fun a b => a ∈ nbrs b) l ∧ (∀ x ∈ l, x = start ∨ x ∉ blocked) := by
  intro v
  induction v using Nat.strong_induction_on with
  | _ v ih =>
    intro c hc n hn
    have hcame : (alookup c st.came).isSome := (hInv.domSync c).mp (by rw [hc]; rfl)
    obtain ⟨n2, rfl⟩ : ∃ n2, n = n2 + 1 := ⟨n - 1, by omega⟩
    cases ho : alookup c st.came with
    | none => rw [ho] at hcame; exact absurd hcame (by simp)
    | some o =>
      cases o with
      | none =>
        have hcs : c = start := hInv.cameOnlyStart c ho
        refine ⟨[c], by simp [backWalk, ho], by simp, by simp, by simp [hcs], by simp,
          by simp, ?_⟩
        intro x hx
        simp only [List.mem_singleton] at hx
        exact Or.inl (hx.trans hcs)
      | some pc =>
        obtain ⟨hstep, hblk, vc, vp, hvc, hvp, hlt⟩ := hInv.link c pc ho
        have hveq : vc = v := by
          rw [hc] at hvc
          exact (Option.some.inj hvc).symm
        have hvp_lt : vp < v := hveq ▸ hlt
        obtain ⟨l2, hl2, hne2, hhead2, hlast2, hlen2, hchain2, hblk2⟩ :=
          ih vp hvp_lt pc hvp n2 (by omega)
        obtain ⟨b, t, rfl⟩ : ∃ b t, l2 = b :: t := by
          cases l2 with
          | nil => exact absurd rfl hne2
          | cons b t => exact ⟨b, t, rfl⟩
        have hbpc : b = pc := by
          simpa using hhead2
        refine ⟨c :: b :: t, ?_, by simp, by simp, ?_, ?_, ?_, ?_⟩
        · simp [backWalk, ho, hl2]
        · rw [List.getLast?_cons_cons]
          exact hlast2
        · have : (b :: t).length ≤ vp + 1 := hlen2
          simp only [List.length_cons] at this ⊢
          omega
        · rw [List.chain'_cons]
          exact ⟨hbpc ▸ hstep, hchain2⟩
        · intro x hx
          rcases List.mem_cons.mp hx with hh | hh
          · exact Or.inr (hh ▸ hblk)
          · exact hblk2 x hh

theorem success_props {start goal : Coord} {blocked : List Coord} {st : AState}
    (hInv : SInv start goal blocked st) {p : List Coord}
    (hstep : astarStep goal blocked st = .goalPopped (some p)) :
    ∃ v, alookup goal st.g = some v ∧ p ≠ [] ∧ p.head? = some start ∧
      p.getLast? = some goal ∧ p.length ≤ v + 1 ∧ List.Chain' isStep p ∧
      (∀ x ∈ p, x = start ∨ x ∉ blocked) := by
  obtain ⟨f0, rest, hpop, hbw⟩ := astarStep_goal_inv hstep
  obtain ⟨v, hv⟩ : ∃ v, alookup goal st.g = some v := by
    rcases hInv.qf f0 goal (popMin_mem hpop) with ⟨_, hgs⟩ | ⟨v, hv, _⟩
    · exact ⟨0, hgs ▸ hInv.gstart⟩
    · exact ⟨v, hv⟩
  have hvbound := hInv.gBound goal v hv
  obtain ⟨l, hl, hlne, hlhead, hllast, hllen, hlchain, hlblk⟩ :=
    backWalk_ok hInv v goal hv (st.came.length + 1) (by omega)
  rw [hl] at hbw
  simp only [Option.map_some', Option.some.injEq] at hbw
  subst hbw
  refine ⟨v, hv, by simpa using hlne, ?_, ?_, by simpa using hllen, ?_, ?_⟩
  · rw [List.head?_reverse]
    exact hllast
  · rw [List.getLast?_reverse]
    exact hlhead
  · rw [List.chain'_reverse]
    exact hlchain
  · intro x hx
    exact hlblk x (List.mem_reverse.mp hx)

/-! ### Manhattan bounds along paths -/

theorem chain_hMu_le {t : Coord} :
    ∀ (q : List Coord) (c : Coord), List.Chain' isStep (c :: q) →
    (c :: q).getLast? = some t → hMu c t ≤ 1000 * q.length := by
  intro q
  induction q with
  | nil =>
    intro c _ hlast
    have : c = t := by simpa using hlast
    simp [this, hMu_self]
  | cons c1 q' ih =>
    intro c hchain hlast
    have hstep1 : isStep c c1 := (List.chain'_cons.mp hchain).1
    have hchain1 : List.Chain' isStep (c1 :: q') := (List.chain'_cons.mp hchain).2
    have hlast1 : (c1 :: q').getLast? = some t := by
      rw [← List.getLast?_cons_cons]
      exact hlast
    have h1 : hMu c t ≤ hMu c1 t + 1000 := hMu_step_le hstep1
    have h2 := ih c1 hchain1 hlast1
    simp only [List.length_cons]
    omega

/-! ### The frontier always retains a usable entry along any unblocked path -/

theorem pathProgress {start goal : Coord} {blocked : List Coord} {st : AState}
    (hInv : SInv start goal blocked st) :
    ∀ (q : List Coord) (c : Coord) (v : ℕ), alookup c st.g = some v →
    List.Chain' isStep (c :: q) → (∀ x ∈ q, x ∉ blocked) →
    (c :: q).getLast? = some goal →
    (∃ w, alookup goal st.g = some w ∧ w ≤ v + q.length) ∨
    (∃ d f k r, (f, d) ∈ st.openq ∧ f ≤ scaleW * (v + k) + hMu d goal ∧
      hMu d goal ≤ 1000 * r ∧ k + r ≤ q.length) := by
  intro q
  induction q with
  | nil =>
    intro c v hc _ _ hlast
    have hc2 : c = goal := by simpa using hlast
    exact Or.inl ⟨v, hc2 ▸ hc, by omega⟩
  | cons c1 q' ih =>
    intro c v hc hchain hblk hlast
    have hstep1 : isStep c c1 := (List.chain'_cons.mp hchain).1
    have hchain1 : List.Chain' isStep (c1 :: q') := (List.chain'_cons.mp hchain).2
    have hblk1 : c1 ∉ blocked := hblk c1 (List.mem_cons_self _ _)
    have hlast1 : (c1 :: q').getLast? = some goal := by
      rw [← List.getLast?_cons_cons]
      exact hlast
    rcases hInv.settled c v hc with ⟨f, hf, hb⟩ | hnbr
    · refine Or.inr ⟨c, f, 0, q'.length + 1, hf, by simpa using hb, ?_, by simp⟩
      have := chain_hMu_le (c1 :: q') c hchain hlast
      simpa using this
    · obtain ⟨w1, hw1, hle1⟩ := hnbr c1 hstep1 hblk1
      rcases ih c1 w1 hw1 hchain1 (fun x hx => hblk x (List.mem_cons_of_mem _ hx)) hlast1
        with ⟨w, hw, hwle⟩ | ⟨d, f, k, r, hmm, hfb, hh, hkr⟩
      · refine Or.inl ⟨w, hw, ?_⟩
        simp only [List.length_cons]
        omega
      · refine Or.inr ⟨d, f, k + 1, r, hmm, ?_, hh, ?_⟩
        · calc f ≤ scaleW * (w1 + k) + hMu d goal := hfb
            _ ≤ scaleW * (v + (k + 1)) + hMu d goal := by
                have hmul : w1 + k ≤ v + (k + 1) := by omega
                exact Nat.add_le_add_right (Nat.mul_le_mul_left _ hmul) _
        · simp only [List.length_cons]
          omega

/-- When the goal is popped, its recorded cost is at most the step count of
any lattice path from start to goal whose cells (after the start) avoid
the blocked set: the admissibility bound of the Manhattan heuristic. -/
theorem popBound {start goal : Coord} {blocked : List Coord} {st : AState}
    (hInv : SInv start goal blocked st) {f0 : ℕ} {rest : List Entry}
    (hpop : popMin st.openq = some ((f0, goal), rest))
    (q : List Coord) (hq : ValidPath start goal q) (hqb : ∀ x ∈ q.tail, x ∉ blocked) :
    ∃ w, alookup goal st.g = some w ∧ w + 1 ≤ q.length := by
  obtain ⟨hhead, hlast, hchain⟩ := hq
  obtain ⟨a, t, rfl⟩ : ∃ a t, q = a :: t := by
    cases q with
    | nil => simp at hhead
    | cons a t => exact ⟨a, t, rfl⟩
  have ha : a = start := by simpa using hhead
  rw [ha] at hchain hlast
  have hblk' : ∀ x ∈ t, x ∉ blocked := by
    intro x hx
    exact hqb x (by simpa using hx)
  rcases pathProgress hInv t start 0 hInv.gstart hchain hblk' hlast
    with ⟨w, hw, hwle⟩ | ⟨d, f, k, r, hmm, hfb, hh, hkr⟩
  · refine ⟨w, hw, ?_⟩
    simp only [List.length_cons]
    omega
  · have hminle : entryLe (f0, goal) (f, d) := popMin_min hpop _ hmm
    have hf0f : f0 ≤ f := entryLe_fst hminle
    rcases hInv.qf f0 goal (popMin_mem hpop) with ⟨_, hgs⟩ | ⟨w, hwg, hwb⟩
    · refine ⟨0, hgs ▸ hInv.gstart, ?_⟩
      simp
    · refine ⟨w, hwg, ?_⟩
      have h0 : hMu goal goal = 0 := hMu_self goal
      have hble : scaleW * w ≤ f0 := by omega
      have hchainb : scaleW * w ≤ scaleW * k + 1000 * r := by
        have hk0 : scaleW * (0 + k) = scaleW * k := by ring
        calc scaleW * w ≤ f0 := hble
          _ ≤ f := hf0f
          _ ≤ scaleW * (0 + k) + hMu d goal := hfb
          _ ≤ scaleW * k + 1000 * r := by rw [hk0]; omega
      have hwkr : w ≤ k + r := by
        rw [show scaleW = 1000000 from rfl] at hchainb
        omega
      simp only [List.length_cons]
      omega

/-! ### With no blocked cells the frontier can never empty -/

theorem maxFirst : ∀ (l : List Coord), l ≠ [] → ∃ m ∈ l, ∀ x ∈ l, x.1 ≤ m.1 := by
  intro l
  induction l with
  | nil => intro h; exact absurd rfl h
  | cons a t ih =>
    intro _
    cases t with
    | nil =>
      refine ⟨a, List.mem_cons_self _ _, ?_⟩
      intro x hx
      simp only [List.mem_singleton] at hx
      rw [hx]
    | cons b t2 =>
      obtain ⟨m, hm, hmax⟩ := ih (by simp)
      by_cases h : a.1 ≤ m.1
      · refine ⟨m, List.mem_cons_of_mem _ hm, ?_⟩
        intro x hx
        rcases List.mem_cons.mp hx with hh | hh
        · rw [hh]; exact h
        · exact hmax x hh
      · refine ⟨a, List.mem_cons_self _ _, ?_⟩
        intro x hx
        rcases List.mem_cons.mp hx with hh | hh
        · rw [hh]
        · have := hmax x hh
          omega

theorem frontier_nonempty {start goal : Coord} {st : AState}
    (hInv : SInv start goal [] st) : st.openq ≠ [] := by
  intro hq
  have hclosed : ∀ c v, alookup c st.g = some v → ∀ nb ∈ nbrs c,
      (alookup nb st.g).isSome := by
    intro c v hc nb hnb
    rcases hInv.settled c v hc with ⟨f, hf, _⟩ | hnbr
    · rw [hq] at hf
      exact absurd hf (List.not_mem_nil _)
    · obtain ⟨w, hw, _⟩ := hnbr nb hnb (List.not_mem_nil nb)
      rw [hw]
      rfl
  have hkeys : start ∈ st.g.map Prod.fst :=
    (alookup_isSome_iff start st.g).mp (by rw [hInv.gstart]; rfl)
  obtain ⟨m, hm, hmax⟩ := maxFirst (st.g.map Prod.fst)
    (by intro h; rw [h] at hkeys; exact List.not_mem_nil _ hkeys)
  obtain ⟨v, hv⟩ : ∃ v, alookup m st.g = some v :=
    Option.isSome_iff_exists.mp ((alookup_isSome_iff m st.g).mpr hm)
  have hnb : ((m.1 + 1000, m.2) : Coord) ∈ nbrs m := by simp [nbrs]
  have hs := hclosed m v hv _ hnb
  have hmem2 : ((m.1 + 1000, m.2) : Coord) ∈ st.g.map Prod.fst :=
    (alookup_isSome_iff _ _).mp hs
  have := hmax _ hmem2
  simp only at this
  omega

/-! ### Aligned-lattice arithmetic and minimal comparison paths -/

theorem aligned_hMu {s t : Coord} (h : LatticeAligned s t) :
    hMu s t = 1000 * manSteps s t := by
  obtain ⟨i, j, ht⟩ := h
  have hm : hMu s t = 1000 * (i.natAbs + j.natAbs) := by
    rw [ht]
    unfold hMu
    dsimp only
    have h1 : s.1 - (s.1 + 1000 * i) = 1000 * (-i) := by ring
    have h2 : s.2 - (s.2 + 1000 * j) = 1000 * (-j) := by ring
    rw [h1, h2, Int.natAbs_mul, Int.natAbs_mul, Int.natAbs_neg, Int.natAbs_neg]
    have h1000 : ((1000 : ℤ)).natAbs = 1000 := rfl
    rw [h1000]
    ring
  unfold manSteps
  rw [hm, Nat.mul_div_cancel_left _ (by norm_num : (0:ℕ) < 1000)]

theorem aligned_dvd {s t : Coord} (h : LatticeAligned s t) :
    (1000 : ℤ) ∣ (t.1 - s.1) ∧ (1000 : ℤ) ∣ (t.2 - s.2) := by
  obtain ⟨i, j, ht⟩ := h
  rw [ht]
  dsimp only
  exact ⟨⟨i, by ring⟩, ⟨j, by ring⟩⟩

theorem exists_min_path : ∀ (n : ℕ) (s t : Coord), (1000 : ℤ) ∣ (t.1 - s.1) →
    (1000 : ℤ) ∣ (t.2 - s.2) → hMu s t = 1000 * n →
    ∃ q, ValidPath s t q ∧ q.length = n + 1 := by
  intro n
  induction n with
  | zero =>
    intro s t h1 h2 hm
    have hst : s = t := by
      obtain ⟨x, y⟩ := s
      obtain ⟨u, w⟩ := t
      unfold hMu at hm
      dsimp only at hm
      simp only [Prod.mk.injEq]
      omega
    refine ⟨[s], ⟨by simp, by simp [hst], by simp⟩, rfl⟩
  | succ n ih =>
    intro s t h1 h2 hm
    have hstep : ∃ s2 : Coord, s2 ∈ nbrs s ∧ (1000 : ℤ) ∣ (t.1 - s2.1) ∧
        (1000 : ℤ) ∣ (t.2 - s2.2) ∧ hMu s2 t = 1000 * n := by
      obtain ⟨c1, hc1⟩ := h1
      obtain ⟨c2, hc2⟩ := h2
      by_cases hx1 : s.1 < t.1
      · refine ⟨(s.1 + 1000, s.2), by simp [nbrs], ⟨c1 - 1, by omega⟩, ⟨c2, by omega⟩, ?_⟩
        unfold hMu at hm ⊢
        dsimp only at hm ⊢
        have : (0:ℤ) < c1 := by omega
        omega
      · by_cases hx2 : t.1 < s.1
        · refine ⟨(s.1 - 1000, s.2), by simp [nbrs], ⟨c1 + 1, by omega⟩, ⟨c2, by omega⟩, ?_⟩
          unfold hMu at hm ⊢
          dsimp only at hm ⊢
          have : c1 < 0 := by omega
          omega
        · by_cases hy1 : s.2 < t.2
          · refine ⟨(s.1, s.2 + 1000), by simp [nbrs], ⟨c1, by omega⟩, ⟨c2 - 1, by omega⟩, ?_⟩
            unfold hMu at hm ⊢
            dsimp only at hm ⊢
            have : (0:ℤ) < c2 := by omega
            omega
          · by_cases hy2 : t.2 < s.2
            · refine ⟨(s.1, s.2 - 1000), by simp [nbrs], ⟨c1, by omega⟩, ⟨c2 + 1, by omega⟩, ?_⟩
              unfold hMu at hm ⊢
              dsimp only at hm ⊢
              have : c2 < 0 := by omega
              omega
            · exfalso
              unfold hMu at hm
              omega
    obtain ⟨s2, hs2, hd1, hd2, hm2⟩ := hstep
    obtain ⟨q', ⟨hh, hl, hc⟩, hlen⟩ := ih s2 t hd1 hd2 hm2
    obtain ⟨b, t2, rfl⟩ : ∃ b t2, q' = b :: t2 := by
      cases q' with
      | nil => simp at hlen
      | cons b t2 => exact ⟨b, t2, rfl⟩
    have hb : b = s2 := by simpa using hh
    refine ⟨s :: b :: t2, ⟨by simp, ?_, ?_⟩, by simpa using hlen⟩
    · rw [List.getLast?_cons_cons]
      exact hl
    · rw [List.chain'_cons]
      exact ⟨hb ▸ hs2, hc⟩

/-! ### Misaligned goals are never popped; with no blocking the loop never ends -/

theorem pop_ne_goal_of_misaligned {start goal : Coord} {blocked : List Coord} {st : AState}
    (hInv : SInv start goal blocked st) (hmis : ¬ LatticeAligned start goal)
    {f0 : ℕ} {cur : Coord} {rest : List Entry}
    (hpop : popMin st.openq = some ((f0, cur), rest)) : cur ≠ goal := by
  intro he
  rcases hInv.qf f0 cur (popMin_mem hpop) with ⟨_, hcs⟩ | ⟨v, hv, _⟩
  · exact hmis (he ▸ hcs ▸ aligned_self start)
  · exact hmis (he ▸ hInv.aligned cur (by rw [hv]; rfl))

theorem no_termination_of_misaligned_free {start goal : Coord}
    (hmis : ¬ LatticeAligned start goal) :
    ∀ (n : ℕ) (st : AState), SInv start goal [] st → astarFuel goal [] n st = none := by
  intro n
  induction n with
  | zero => intro st _; rfl
  | succ n ih =>
    intro st hInv
    rw [show astarFuel goal [] (n + 1) st =
      (match astarStep goal [] st with
        | .emptyFrontier => some []
        | .goalPopped p => p
        | .more st2 => astarFuel goal [] n st2) from rfl]
    cases hstep : astarStep goal [] st with
    | emptyFrontier =>
      exact absurd (popMin_eq_none.mp (astarStep_empty_inv hstep)) (frontier_nonempty hInv)
    | goalPopped po =>
      obtain ⟨f0, rest, hpop, _⟩ := astarStep_goal_inv hstep
      exact absurd rfl (pop_ne_goal_of_misaligned hInv hmis hpop)
    | more st2 =>
      exact ih st2 (step_preserves hInv hstep)

/-! ### Unreachable goals are never popped -/

theorem qinv_preserved {start goal : Coord} {blocked : List Coord}
    (hgoal : (goal ∈ blocked ∧ goal ≠ start) ∨
      ((∀ nb ∈ nbrs goal, nb ∈ blocked) ∧ goal ≠ start ∧ start ∉ blocked)) :
    ∀ (st st2 : AState), QInv start goal blocked st →
    astarStep goal blocked st = .more st2 → QInv start goal blocked st2 := by
  intro st st2 hq hstep
  obtain ⟨f0, cur, rest, hpop, hne, hex⟩ := astarStep_more_inv hstep
  have hcur := hq f0 cur (popMin_mem hpop)
  intro f c hmem
  rw [hex] at hmem
  rcases fold_queue_cases (nbrs cur) _ hmem with hh | ⟨nb, hnb, hb, he⟩
  · exact hq f c (popMin_rest_mem hpop hh)
  · dsimp only at he
    subst he
    constructor
    · intro hcg
      rcases hgoal with ⟨hgb, _⟩ | ⟨hsur, _, hsb⟩
      · exact hb (hcg ▸ hgb)
      · have hcur_nb : cur ∈ nbrs goal := nbrs_symm (hcg ▸ hnb)
        have hcur_blk : cur ∈ blocked := hsur cur hcur_nb
        rcases hcur.2 with hcs | hcb
        · exact (hcs ▸ hsb) hcur_blk
        · exact hcb hcur_blk
    · exact Or.inr hb

theorem qinv_never_found {start goal : Coord} {blocked : List Coord}
    (hgoal : (goal ∈ blocked ∧ goal ≠ start) ∨
      ((∀ nb ∈ nbrs goal, nb ∈ blocked) ∧ goal ≠ start ∧ start ∉ blocked)) :
    ∀ (fuel : ℕ) (p : List Coord), astarRun start goal blocked fuel = some p → p = [] := by
  intro fuel p h
  obtain ⟨k, st2, hk, hit, hres⟩ := run_cases fuel (initState start) p h
  have hqinit : QInv start goal blocked (initState start) := by
    intro f c hmem
    simp only [initState, List.mem_singleton, Prod.mk.injEq] at hmem
    constructor
    · rw [hmem.2]
      rcases hgoal with ⟨_, hgs⟩ | ⟨_, hgs, _⟩
      · exact fun he => hgs he.symm
      · exact fun he => hgs he.symm
    · exact Or.inl hmem.2
  have hq2 : QInv start goal blocked st2 :=
    iter_preserve (QInv start goal blocked) (qinv_preserved hgoal) k (initState start) st2
      hqinit hit
  rcases hres with ⟨_, hp⟩ | hgp
  · exact hp
  · obtain ⟨f0, rest, hpop, _⟩ := astarStep_goal_inv hgp
    exact absurd rfl (hq2 f0 goal (popMin_mem hpop)).1

/-! ### The result depends only on the multiset of frontier entries -/

theorem astarStep_of_popMin_none (goal : Coord) (blocked : List Coord) (st : AState)
    (h : popMin st.openq = none) : astarStep goal blocked st = .emptyFrontier := by
  unfold astarStep
  rw [h]

theorem astarStep_of_popMin_some (goal : Coord) (blocked : List Coord) (st : AState)
    (f0 : ℕ) (cur : Coord) (rest : List Entry)
    (h : popMin st.openq = some ((f0, cur), rest)) :
    astarStep goal blocked st =
      if cur = goal then
        .goalPopped ((backWalk st.came (st.came.length + 1) cur).map List.reverse)
      else .more (expand goal blocked cur rest st) := by
  unfold astarStep
  rw [h]

theorem relaxOne_congr {goal : Coord} {blocked : List Coord} {cur : Coord}
    (q1 q2 : List Entry) (came : List (Coord × Option Coord)) (gt : List (Coord × ℕ))
    (nb : Coord) (hq : q1.Perm q2) :
    (relaxOne goal blocked cur ⟨q1, came, gt⟩ nb).openq.Perm
      (relaxOne goal blocked cur ⟨q2, came, gt⟩ nb).openq ∧
    (relaxOne goal blocked cur ⟨q1, came, gt⟩ nb).came =
      (relaxOne goal blocked cur ⟨q2, came, gt⟩ nb).came ∧
    (relaxOne goal blocked cur ⟨q1, came, gt⟩ nb).g =
      (relaxOne goal blocked cur ⟨q2, came, gt⟩ nb).g := by
  unfold relaxOne
  by_cases hb : nb ∈ blocked
  · rw [if_pos hb, if_pos hb]
    exact ⟨hq, rfl, rfl⟩
  · rw [if_neg hb, if_neg hb]
    dsimp only
    cases halo : alookup nb gt with
    | none =>
      unfold pushState
      dsimp only
      exact ⟨hq.cons _, rfl, rfl⟩
    | some v =>
      dsimp only
      by_cases hlt : (alookup cur gt).getD 0 + 1 < v
      · rw [if_pos hlt, if_pos hlt]
        unfold pushState
        dsimp only
        exact ⟨hq.cons _, rfl, rfl⟩
      · rw [if_neg hlt, if_neg hlt]
        exact ⟨hq, rfl, rfl⟩

theorem fold_congr {goal : Coord} {blocked : List Coord} {cur : Coord} :
    ∀ (ns : List Coord) (q1 q2 : List Entry) (came : List (Coord × Option Coord))
      (gt : List (Coord × ℕ)), q1.Perm q2 →
    (ns.foldl (relaxOne goal blocked cur) ⟨q1, came, gt⟩).openq.Perm
      (ns.foldl (relaxOne goal blocked cur) ⟨q2, came, gt⟩).openq ∧
    (ns.foldl (relaxOne goal blocked cur) ⟨q1, came, gt⟩).came =
      (ns.foldl (relaxOne goal blocked cur) ⟨q2, came, gt⟩).came ∧
    (ns.foldl (relaxOne goal blocked cur) ⟨q1, came, gt⟩).g =
      (ns.foldl (relaxOne goal blocked cur) ⟨q2, came, gt⟩).g := by
  intro ns
  induction ns with
  | nil =>
    intro q1 q2 came gt hq
    exact ⟨hq, rfl, rfl⟩
  | cons a t ih =>
    intro q1 q2 came gt hq
    obtain ⟨hp, hc, hg⟩ := relaxOne_congr q1 q2 came gt a hq
    have e1 : (a :: t).foldl (relaxOne goal blocked cur) ⟨q1, came, gt⟩
        = t.foldl (relaxOne goal blocked cur)
          ⟨(relaxOne goal blocked cur ⟨q1, came, gt⟩ a).openq,
           (relaxOne goal blocked cur ⟨q1, came, gt⟩ a).came,
           (relaxOne goal blocked cur ⟨q1, came, gt⟩ a).g⟩ := rfl
    have e2 : (a :: t).foldl (relaxOne goal blocked cur) ⟨q2, came, gt⟩
        = t.foldl (relaxOne goal blocked cur)
          ⟨(relaxOne goal blocked cur ⟨q2, came, gt⟩ a).openq,
           (relaxOne goal blocked cur ⟨q2, came, gt⟩ a).came,
           (relaxOne goal blocked cur ⟨q2, came, gt⟩ a).g⟩ := rfl
    rw [e1, e2, ← hc, ← hg]
    exact ih _ _ _ _ hp

/-- If every blocked cell lies weakly to the left of start (first
coordinate at most start's), the frontier can never empty: the rightmost
discovered cell always has an undiscovered, unblocked right neighbour
that must still be pending. -/
theorem frontier_nonempty_blocked_left {start goal : Coord} {blocked : List Coord}
    {st : AState} (hInv : SInv start goal blocked st)
    (hb : ∀ bc ∈ blocked, bc.1 ≤ start.1) : st.openq ≠ [] := by
  intro hq
  have hclosed : ∀ c v, alookup c st.g = some v → ∀ nb ∈ nbrs c, nb ∉ blocked →
      (alookup nb st.g).isSome := by
    intro c v hc nb hnb hnblk
    rcases hInv.settled c v hc with ⟨f, hf, _⟩ | hnbr
    · rw [hq] at hf
      exact absurd hf (List.not_mem_nil _)
    · obtain ⟨w, hw, _⟩ := hnbr nb hnb hnblk
      rw [hw]
      rfl
  have hkeys : start ∈ st.g.map Prod.fst :=
    (alookup_isSome_iff start st.g).mp (by rw [hInv.gstart]; rfl)
  obtain ⟨m, hm, hmax⟩ := maxFirst (st.g.map Prod.fst)
    (by intro h; rw [h] at hkeys; exact List.not_mem_nil _ hkeys)
  obtain ⟨v, hv⟩ : ∃ v, alookup m st.g = some v :=
    Option.isSome_iff_exists.mp ((alookup_isSome_iff m st.g).mpr hm)
  have hsx : start.1 ≤ m.1 := hmax _ hkeys
  have hnb : ((m.1 + 1000, m.2) : Coord) ∈ nbrs m := by simp [nbrs]
  by_cases hblk : ((m.1 + 1000, m.2) : Coord) ∈ blocked
  · have := hb _ hblk
    dsimp only at this
    omega
  · have hs := hclosed m v hv _ hnb hblk
    have hmem2 : ((m.1 + 1000, m.2) : Coord) ∈ st.g.map Prod.fst :=
      (alookup_isSome_iff _ _).mp hs
    have := hmax _ hmem2
    dsimp only at this
    omega

/-- With the goal itself blocked (and distinct from start) and every
blocked cell weakly to the left of start, the loop never terminates: the
goal is never popped and the frontier never empties. -/
theorem no_termination_of_blocked_goal {s g : Coord} {b : List Coord}
    (hgb : g ∈ b) (hgs : g ≠ s) (hleft : ∀ bc ∈ b, bc.1 ≤ s.1) :
    ∀ (n : ℕ) (st : AState), SInv s g b st → QInv s g b st →
    astarFuel g b n st = none := by
  intro n
  induction n with
  | zero => intro st _ _; rfl
  | succ n ih =>
    intro st hInv hq
    rw [show astarFuel g b (n + 1) st =
      (match astarStep g b st with
        | .emptyFrontier => some []
        | .goalPopped p => p
        | .more st2 => astarFuel g b n st2) from rfl]
    cases hstep : astarStep g b st with
    | emptyFrontier =>
      exact absurd (popMin_eq_none.mp (astarStep_empty_inv hstep))
        (frontier_nonempty_blocked_left hInv hleft)
    | goalPopped po =>
      obtain ⟨f0, rest, hpop, _⟩ := astarStep_goal_inv hstep
      exact absurd rfl (hq f0 g (popMin_mem hpop)).1
    | more st2 =>
      exact ih st2 (step_preserves hInv hstep)
        (qinv_preserved (Or.inl ⟨hgb, fun he => hgs he⟩) st st2 hq hstep)

/-! ### Termination with an empty blocked set: a decreasing measure -/

theorem mem_ballFinset_of_hMu {goal c : Coord} {D : ℕ} (h : hMu c goal ≤ scaleW * D) :
    c ∈ ballFinset goal D := by
  obtain ⟨x, y⟩ := c
  obtain ⟨gx, gy⟩ := goal
  unfold hMu at h
  dsimp only at h
  rw [ballFinset, Finset.mem_Icc, Prod.mk_le_mk, Prod.mk_le_mk]
  dsimp only
  omega

theorem countQ_cons (B : ℕ) (e : Entry) (q : List Entry) :
    countQ B (e :: q) = if e.1 ≤ B then countQ B q + 1 else countQ B q := by
  unfold countQ
  rw [List.filter_cons]
  by_cases h : e.1 ≤ B
  · simp [h]
  · simp [h]

theorem countQ_perm {B : ℕ} {q1 q2 : List Entry} (h : q1.Perm q2) :
    countQ B q1 = countQ B q2 :=
  (h.filter _).length_eq

theorem relaxOne_phi_le {goal : Coord} {blocked : List Coord} {cur : Coord}
    {st : AState} {nb : Coord} {D : ℕ} :
    phiMeasure goal D (relaxOne goal blocked cur st nb) ≤ phiMeasure goal D st := by
  rcases relaxOne_cases goal blocked cur st nb with ⟨heq, _⟩ | ⟨heq, hnb2, himp⟩
  · rw [heq]
  · rw [heq]
    unfold phiMeasure pushState
    dsimp only
    rw [countQ_cons]
    dsimp only
    have hpoint : ∀ c ∈ ballFinset goal D,
        wCell D ((nb, (alookup cur st.g).getD 0 + 1) :: st.g) c ≤ wCell D st.g c := by
      intro c _
      by_cases hc : c = nb
      · subst hc
        unfold wCell
        rw [alookup_cons_self]
        cases halo : alookup c st.g with
        | none =>
          dsimp only
          omega
        | some v =>
          have := himp v halo
          dsimp only
          omega
      · unfold wCell
        rw [alookup_cons_ne _ _ hc]
    by_cases hfB : scaleW * ((alookup cur st.g).getD 0 + 1) + hMu nb goal ≤ scaleW * D
    · rw [if_pos hfB]
      have hnbball : nb ∈ ballFinset goal D := mem_ballFinset_of_hMu (by omega)
      have hngD : (alookup cur st.g).getD 0 + 1 ≤ D := by
        have h1 : scaleW * ((alookup cur st.g).getD 0 + 1) ≤ scaleW * D := by omega
        exact Nat.le_of_mul_le_mul_left h1 (by decide)
      have hstrict : wCell D ((nb, (alookup cur st.g).getD 0 + 1) :: st.g) nb <
          wCell D st.g nb := by
        unfold wCell
        rw [alookup_cons_self]
        cases halo : alookup nb st.g with
        | none =>
          dsimp only
          omega
        | some v =>
          have := himp v halo
          dsimp only
          omega
      have hsum : Finset.sum (ballFinset goal D)
            (wCell D ((nb, (alookup cur st.g).getD 0 + 1) :: st.g)) <
          Finset.sum (ballFinset goal D) (wCell D st.g) :=
        Finset.sum_lt_sum hpoint ⟨nb, hnbball, hstrict⟩
      omega
    · rw [if_neg hfB]
      have hsum : Finset.sum (ballFinset goal D)
            (wCell D ((nb, (alookup cur st.g).getD 0 + 1) :: st.g)) ≤
          Finset.sum (ballFinset goal D) (wCell D st.g) :=
        Finset.sum_le_sum hpoint
      omega

theorem fold_phi_le {goal : Coord} {blocked : List Coord} {cur : Coord} {D : ℕ} :
    ∀ (ns : List Coord) (st : AState),
    phiMeasure goal D (ns.foldl (relaxOne goal blocked cur) st) ≤ phiMeasure goal D st := by
  intro ns
  induction ns with
  | nil => intro st; exact le_refl _
  | cons a t ih =>
    intro st
    exact le_trans (ih (relaxOne goal blocked cur st a)) relaxOne_phi_le

theorem pop_phi (goal : Coord) (D : ℕ) {st : AState} {f0 : ℕ} {cur : Coord}
    {rest : List Entry} (hpop : popMin st.openq = some ((f0, cur), rest))
    (hf0 : f0 ≤ scaleW * D) :
    phiMeasure goal D ⟨rest, st.came, st.g⟩ < phiMeasure goal D st := by
  unfold phiMeasure
  dsimp only
  have hc : countQ (scaleW * D) st.openq = countQ (scaleW * D) ((f0, cur) :: rest) :=
    countQ_perm (popMin_perm hpop)
  rw [hc, countQ_cons]
  dsimp only
  rw [if_pos hf0]
  omega

theorem relaxOne_ginv {goal : Coord} {blocked : List Coord} {cur : Coord} {st : AState}
    {nb : Coord} (h : GoalEntryInv goal st) :
    GoalEntryInv goal (relaxOne goal blocked cur st nb) := by
  rcases relaxOne_cases goal blocked cur st nb with ⟨heq, _⟩ | ⟨heq, hnb2, himp⟩
  · rw [heq]
    exact h
  · rw [heq]
    intro v hv
    rw [pushState] at hv
    dsimp only at hv
    by_cases hng : nb = goal
    · rw [← hng, alookup_cons_self] at hv
      have hveq : v = (alookup cur st.g).getD 0 + 1 := (Option.some.inj hv).symm
      rw [pushState]
      dsimp only
      rw [← hng]
      refine ⟨scaleW * ((alookup cur st.g).getD 0 + 1) + hMu nb nb,
        List.mem_cons_self _ _, ?_⟩
      rw [hMu_self, hveq]
      omega
    · rw [alookup_cons_ne _ _ (fun he => hng he.symm)] at hv
      obtain ⟨f, hf, hb⟩ := h v hv
      rw [pushState]
      dsimp only
      exact ⟨f, List.mem_cons_of_mem _ hf, hb⟩

theorem fold_ginv {goal : Coord} {blocked : List Coord} {cur : Coord} :
    ∀ (ns : List Coord) (st : AState), GoalEntryInv goal st →
    GoalEntryInv goal (ns.foldl (relaxOne goal blocked cur) st) := by
  intro ns
  induction ns with
  | nil => intro st h; exact h
  | cons a t ih =>
    intro st h
    exact ih (relaxOne goal blocked cur st a) (relaxOne_ginv h)

theorem ginv_step {goal : Coord} {blocked : List Coord} {st st2 : AState}
    (h : GoalEntryInv goal st) (hstep : astarStep goal blocked st = .more st2) :
    GoalEntryInv goal st2 := by
  obtain ⟨f0, cur, rest, hpop, hne, hex⟩ := astarStep_more_inv hstep
  have hbase : GoalEntryInv goal ⟨rest, st.came, st.g⟩ := by
    intro v hv
    obtain ⟨f, hf, hb⟩ := h v hv
    refine ⟨f, popMin_rest_of_mem hpop hf ?_, hb⟩
    intro he
    injection he with h1 h2
    exact hne h2.symm
  rw [hex]
  exact fold_ginv (nbrs cur) _ hbase

theorem ginv_init (s g : Coord) : GoalEntryInv g (initState s) := by
  intro v hv
  simp only [initState] at hv
  by_cases hgs : g = s
  · rw [hgs, alookup_cons_self] at hv
    have hveq : v = 0 := (Option.some.inj hv).symm
    refine ⟨0, ?_, by omega⟩
    simp [initState, hgs]
  · rw [alookup_cons_ne _ _ hgs] at hv
    exact Option.noConfusion hv

theorem exists_low_entry {s g : Coord} {st : AState} (hal : LatticeAligned s g)
    (hInv : SInv s g [] st) (hgi : GoalEntryInv g st) :
    ∃ f c, (f, c) ∈ st.openq ∧ f ≤ scaleW * manSteps s g := by
  obtain ⟨hd1, hd2⟩ := aligned_dvd hal
  obtain ⟨q, hq, hqlen⟩ := exists_min_path (manSteps s g) s g hd1 hd2 (aligned_hMu hal)
  obtain ⟨hhead, hlast, hchain⟩ := hq
  obtain ⟨a, t, rfl⟩ : ∃ a t, q = a :: t := by
    cases q with
    | nil => simp at hhead
    | cons a t => exact ⟨a, t, rfl⟩
  have ha : a = s := by simpa using hhead
  rw [ha] at hchain hlast
  have htlen : t.length = manSteps s g := by simpa using hqlen
  rcases pathProgress hInv t s 0 hInv.gstart hchain (fun x _ => List.not_mem_nil x) hlast
    with ⟨w, hw, hwle⟩ | ⟨d, f, k, r, hmm, hfb, hh, hkr⟩
  · obtain ⟨f, hf, hb⟩ := hgi w hw
    refine ⟨f, g, hf, ?_⟩
    have hwD : w ≤ manSteps s g := by omega
    calc f ≤ scaleW * w := hb
      _ ≤ scaleW * manSteps s g := Nat.mul_le_mul_left _ hwD
  · refine ⟨f, d, hmm, ?_⟩
    have hzk : scaleW * (0 + k) = scaleW * k := by ring
    rw [hzk] at hfb
    have h2 : k + r ≤ manSteps s g := by omega
    rw [show scaleW = 1000000 from rfl] at hfb ⊢
    omega

theorem step_phi_decrease {s g : Coord} {st st2 : AState} (hal : LatticeAligned s g)
    (hInv : SInv s g [] st) (hgi : GoalEntryInv g st)
    (hstep : astarStep g [] st = .more st2) :
    phiMeasure g (manSteps s g) st2 < phiMeasure g (manSteps s g) st := by
  obtain ⟨f0, cur, rest, hpop, hne, hex⟩ := astarStep_more_inv hstep
  obtain ⟨f, c, hfc, hfB⟩ := exists_low_entry hal hInv hgi
  have hmin := popMin_min hpop _ hfc
  have hf0 : f0 ≤ scaleW * manSteps s g := le_trans (entryLe_fst hmin) hfB
  have h1 := pop_phi g (manSteps s g) hpop hf0
  have h2 : phiMeasure g (manSteps s g) st2 ≤
      phiMeasure g (manSteps s g) ⟨rest, st.came, st.g⟩ := by
    rw [hex]
    exact fold_phi_le (nbrs cur) _
  omega

theorem goalPopped_some {start goal : Coord} {blocked : List Coord} {st : AState}
    (hInv : SInv start goal blocked st) {po : Option (List Coord)}
    (hstep : astarStep goal blocked st = .goalPopped po) : ∃ l, po = some l := by
  obtain ⟨f0, rest, hpop, hbw⟩ := astarStep_goal_inv hstep
  obtain ⟨v, hv⟩ : ∃ v, alookup goal st.g = some v := by
    rcases hInv.qf f0 goal (popMin_mem hpop) with ⟨_, hgs⟩ | ⟨v, hv, _⟩
    · exact ⟨0, hgs ▸ hInv.gstart⟩
    · exact ⟨v, hv⟩
  obtain ⟨l, hl, _⟩ := backWalk_ok hInv v goal hv (st.came.length + 1)
    (by have := hInv.gBound goal v hv; omega)
  refine ⟨l.reverse, ?_⟩
  rw [hbw, hl]
  rfl

theorem astar_term_aux {s g : Coord} (hal : LatticeAligned s g) :
    ∀ (N : ℕ) (st : AState), phiMeasure g (manSteps s g) st ≤ N →
    SInv s g [] st → GoalEntryInv g st →
    ∃ n p, astarFuel g [] n st = some p := by
  intro N
  induction N with
  | zero =>
    intro st hphi hInv hgi
    cases hstep : astarStep g [] st with
    | emptyFrontier =>
      exact absurd (popMin_eq_none.mp (astarStep_empty_inv hstep))
        (frontier_nonempty hInv)
    | goalPopped po =>
      obtain ⟨l, hpo⟩ := goalPopped_some hInv hstep
      refine ⟨1, l, ?_⟩
      rw [show astarFuel g [] 1 st =
        (match astarStep g [] st with
          | .emptyFrontier => some []
          | .goalPopped p => p
          | .more st3 => astarFuel g [] 0 st3) from rfl, hstep]
      exact hpo
    | more st2 =>
      exact absurd (step_phi_decrease hal hInv hgi hstep) (by omega)
  | succ N ih =>
    intro st hphi hInv hgi
    cases hstep : astarStep g [] st with
    | emptyFrontier =>
      exact absurd (popMin_eq_none.mp (astarStep_empty_inv hstep))
        (frontier_nonempty hInv)
    | goalPopped po =>
      obtain ⟨l, hpo⟩ := goalPopped_some hInv hstep
      refine ⟨1, l, ?_⟩
      rw [show astarFuel g [] 1 st =
        (match astarStep g [] st with
          | .emptyFrontier => some []
          | .goalPopped p => p
          | .more st3 => astarFuel g [] 0 st3) from rfl, hstep]
      exact hpo
    | more st2 =>
      have hlt := step_phi_decrease hal hInv hgi hstep
      obtain ⟨n, p, hn⟩ := ih st2 (by omega) (step_preserves hInv hstep)
        (ginv_step hgi hstep)
      refine ⟨n + 1, p, ?_⟩
      rw [show astarFuel g [] (n + 1) st =
        (match astarStep g [] st with
          | .emptyFrontier => some []
          | .goalPopped p => p
          | .more st3 => astarFuel g [] n st3) from rfl, hstep]
      exact hn

theorem astar_complete_free {s g : Coord} (hal : LatticeAligned s g) :
    ∃ fuel p, astarRun s g [] fuel = some p :=
  astar_term_aux hal (phiMeasure g (manSteps s g) (initState s)) (initState s)
    (le_refl _) (inv_init s g []) (ginv_init s g)

/-! ### Claim theorems -/

/-- C6: whenever start equals goal after rounding, the very first pop of the
loop is the goal, and `astar` returns the single-element path `[start]`,
whatever the blocked set (one loop iteration of fuel suffices). -/
theorem c6_start_eq_goal (s : Coord) (b : List Coord) (fuel : ℕ) (hf : 1 ≤ fuel) :
    astarRun s s b fuel = some [s] := by
  obtain ⟨n, rfl⟩ : ∃ n, fuel = n + 1 := ⟨fuel - 1, by omega⟩
  have hpop : popMin (initState s).openq = some ((0, s), []) := by
    simp [initState, popMin]
  have hstep : astarStep s b (initState s) = .goalPopped (some [s]) := by
    rw [astarStep_of_popMin_some s b (initState s) 0 s [] hpop, if_pos rfl]
    have hbw : backWalk (initState s).came ((initState s).came.length + 1) s = some [s] := by
      simp [initState, backWalk, alookup_cons_self]
    rw [hbw]
    rfl
  rw [astarRun, show astarFuel s b (n + 1) (initState s) =
    (match astarStep s b (initState s) with
      | .emptyFrontier => some []
      | .goalPopped p => p
      | .more st2 => astarFuel s b n st2) from rfl, hstep]

/-- C6 witness: a concrete start-equals-goal run with a blocked start. -/
theorem c6_start_eq_goal_witness :
    1 ≤ 1 ∧ astarRun (7, -3) (7, -3) [(7, -3)] 1 = some [(7, -3)] :=
  ⟨le_refl 1, c6_start_eq_goal (7, -3) [(7, -3)] 1 (le_refl 1)⟩

/-- C5: the empty path is returned exactly when the frontier is exhausted
without the goal being popped; a successful (goal-popped) result is never
the empty path; and the `/plan` handler answers the HTTP 400 `no path`
failure exactly when `astar` returns the empty path.  The `iterStep`
states are the successive states of the `while openq` loop. -/
theorem c5_notfound_unique (s g : Coord) (b : List Coord) (deny : List (List Coord))
    (fuel : ℕ) :
    (astarRun s g b fuel = some [] ↔
      ∃ k st2, k < fuel ∧ iterStep g b k (initState s) = some st2 ∧
        popMin st2.openq = none) ∧
    (∀ p, astarRun s g b fuel = some p → p ≠ [] →
      ∃ k st2 f0 rest, k < fuel ∧ iterStep g b k (initState s) = some st2 ∧
        popMin st2.openq = some ((f0, g), rest)) ∧
    (planModel ⟨s, g, b, deny⟩ fuel = some PlanOut.noPath400 ↔
      astarRun s g b fuel = some []) := by
  refine ⟨⟨?_, ?_⟩, ?_, ?_⟩
  · intro h
    obtain ⟨k, st2, hk, hit, hres⟩ := run_cases fuel (initState s) [] h
    rcases hres with ⟨hstep, _⟩ | hgp
    · exact ⟨k, st2, hk, hit, astarStep_empty_inv hstep⟩
    · exact absurd rfl (goalPopped_ne_nil hgp)
  · rintro ⟨k, st2, hk, hit, hpop⟩
    have hrun := iter_run k (initState s) st2 hit fuel hk
    rw [astarRun, hrun]
    obtain ⟨m, hm⟩ : ∃ m, fuel - k = m + 1 := ⟨fuel - k - 1, by omega⟩
    rw [hm, show astarFuel g b (m + 1) st2 =
      (match astarStep g b st2 with
        | .emptyFrontier => some []
        | .goalPopped p => p
        | .more st3 => astarFuel g b m st3) from rfl,
      astarStep_of_popMin_none g b st2 hpop]
  · intro p h hne
    obtain ⟨k, st2, hk, hit, hres⟩ := run_cases fuel (initState s) p h
    rcases hres with ⟨_, hp⟩ | hgp
    · exact absurd hp hne
    · obtain ⟨f0, rest, hpop, _⟩ := astarStep_goal_inv hgp
      exact ⟨k, st2, f0, rest, hk, hit, hpop⟩
  · rw [show planModel ⟨s, g, b, deny⟩ fuel =
      (match astarRun s g b fuel with
        | none => none
        | some p => if p = [] then some PlanOut.noPath400 else some (PlanOut.ok p))
      from rfl]
    cases h : astarRun s g b fuel with
    | none =>
      dsimp only
      constructor
      · intro hh
        exact Option.noConfusion hh
      · intro hh
        exact Option.noConfusion hh
    | some p =>
      dsimp only
      by_cases hp : p = []
      · subst hp
        rw [if_pos rfl]
        simp
      · rw [if_neg hp]
        constructor
        · intro hh
          injection hh with hh2
          exact PlanOut.noConfusion hh2
        · intro hh
          injection hh with hh2
          exact absurd hh2 hp

/-- C5 witness: a run whose frontier empties (start enclosed by blocked
cells) yields the empty path, and the handler answers HTTP 400. -/
theorem c5_notfound_unique_witness :
    planModel ⟨(0, 0), (5000, 5000),
      [(0, 1000), (0, -1000), (1000, 0), (-1000, 0), (5000, 5000)], []⟩ 2 =
      some PlanOut.noPath400 :=
  (c5_notfound_unique (0, 0) (5000, 5000)
    [(0, 1000), (0, -1000), (1000, 0), (-1000, 0), (5000, 5000)] [] 2).2.2.mpr (by decide)

/-- C9: the `deny` polygon field of a plan request has no effect: requests
agreeing on start, goal and blocked produce identical handler outcomes for
every fuel, whatever their `deny` fields. -/
theorem c9_deny_no_effect (r1 r2 : PlanReq) (hs : r1.start = r2.start)
    (hg : r1.goal = r2.goal) (hb : r1.blocked = r2.blocked) (fuel : ℕ) :
    planModel r1 fuel = planModel r2 fuel := by
  unfold planModel astarRun
  rw [hs, hg, hb]

/-- C9 witness: two concrete requests differing only in `deny`. -/
theorem c9_deny_no_effect_witness :
    planModel ⟨(0, 0), (0, 2000), [(1000, 0)], []⟩ 10 =
      planModel ⟨(0, 0), (0, 2000), [(1000, 0)], [[(0, 0), (5000, 5000), (0, 5000)]]⟩ 10 :=
  c9_deny_no_effect _ _ rfl rfl rfl 10

/-- C4 amended: every cell recorded in the cost or back-link tables, and
every element of any returned path, is either the start cell itself or
not a member of the blocked set.  (The unamended claim — that even the
start cell is never blocked — is false: `astar` never tests start against
`blocked`.) -/
theorem c4_no_blocked_cells (s g : Coord) (b : List Coord) :
    (∀ k st2, iterStep g b k (initState s) = some st2 →
      ∀ c : Coord, (alookup c st2.g).isSome ∨ (alookup c st2.came).isSome →
        c = s ∨ c ∉ b) ∧
    (∀ fuel p, astarRun s g b fuel = some p → ∀ x ∈ p, x = s ∨ x ∉ b) := by
  constructor
  · intro k st2 hit c hc
    have hInv2 : SInv s g b st2 := inv_iter k _ _ (inv_init s g b) hit
    rcases hc with hg2 | hcame
    · exact hInv2.notBlocked c hg2
    · exact hInv2.notBlocked c ((hInv2.domSync c).mpr hcame)
  · intro fuel p h x hx
    obtain ⟨k, st2, _, hit, hres⟩ := run_cases fuel (initState s) p h
    have hInv2 : SInv s g b st2 := inv_iter k _ _ (inv_init s g b) hit
    rcases hres with ⟨_, hp⟩ | hgp
    · rw [hp] at hx
      exact absurd hx (List.not_mem_nil x)
    · obtain ⟨v, _, _, _, _, _, _, hblk⟩ := success_props hInv2 hgp
      exact hblk x hx

/-- C4 witness: a path element other than start is not blocked. -/
theorem c4_no_blocked_cells_witness :
    astarRun (0, 0) (0, 2000) [(1000, 0)] 10 = some [(0, 0), (0, 1000), (0, 2000)] ∧
    (((0, 1000) : Coord) = (0, 0) ∨ ((0, 1000) : Coord) ∉ ([(1000, 0)] : List Coord)) :=
  ⟨by decide, (c4_no_blocked_cells (0, 0) (0, 2000) [(1000, 0)]).2 10
    [(0, 0), (0, 1000), (0, 2000)] (by decide) (0, 1000) (by decide)⟩

/-- C4 counterexample: the claim as stated — including the start cell —
fails: with start itself blocked (and equal to goal) the search records
start in its tables and returns it in the path. -/
theorem c4_counterexample :
    (((0, 0) : Coord) ∈ ([(0, 0)] : List Coord)) ∧
    astarRun (0, 0) (0, 0) [(0, 0)] 1 = some [(0, 0)] ∧
    (((0, 0) : Coord) ∈ ([(0, 0)] : List Coord)) := by
  refine ⟨by decide, by decide, by decide⟩

/-- C7: every non-empty returned path starts at the rounded start, ends at
the rounded goal, and each consecutive pair differs by exactly one
0.001-pitch lattice step along exactly one axis. -/
theorem c7_path_shape (s g : Coord) (b : List Coord) (fuel : ℕ) (p : List Coord)
    (h : astarRun s g b fuel = some p) (hne : p ≠ []) :
    p.head? = some s ∧ p.getLast? = some g ∧ List.Chain' oneAxisStep p := by
  obtain ⟨k, st2, _, hit, hres⟩ := run_cases fuel (initState s) p h
  have hInv2 : SInv s g b st2 := inv_iter k _ _ (inv_init s g b) hit
  rcases hres with ⟨_, hp⟩ | hgp
  · exact absurd hp hne
  · obtain ⟨v, _, _, hhead, hlast, _, hchain, _⟩ := success_props hInv2 hgp
    exact ⟨hhead, hlast, hchain.imp (fun a b hab => isStep_oneAxis hab)⟩

/-- C7 witness: the shape facts at a concrete returned path. -/
theorem c7_path_shape_witness :
    ([(0, 0), (0, 1000), (0, 2000)] : List Coord).head? = some (0, 0) ∧
    ([(0, 0), (0, 1000), (0, 2000)] : List Coord).getLast? = some (0, 2000) ∧
    List.Chain' oneAxisStep [(0, 0), (0, 1000), (0, 2000)] :=
  c7_path_shape (0, 0) (0, 2000) [] 10 [(0, 0), (0, 1000), (0, 2000)]
    (by decide) (by decide)

/-- C10: a successful result is cost-optimal: its element count is at most
that of every 4-connected lattice path from start to goal avoiding the
blocked set, and (when start itself is unblocked) the result is such a
path itself. -/
theorem c10_optimal (s g : Coord) (b : List Coord) (fuel : ℕ) (p : List Coord)
    (h : astarRun s g b fuel = some p) (hne : p ≠ []) :
    (s ∉ b → ValidPath s g p ∧ AvoidsBlocked b p) ∧
    (∀ q, ValidPath s g q → AvoidsBlocked b q → p.length ≤ q.length) := by
  obtain ⟨k, st2, _, hit, hres⟩ := run_cases fuel (initState s) p h
  have hInv2 : SInv s g b st2 := inv_iter k _ _ (inv_init s g b) hit
  rcases hres with ⟨_, hp⟩ | hgp
  · exact absurd hp hne
  · obtain ⟨v, hv, hpne, hhead, hlast, hlen, hchain, hblk⟩ := success_props hInv2 hgp
    obtain ⟨f0, rest, hpop, _⟩ := astarStep_goal_inv hgp
    constructor
    · intro hsb
      refine ⟨⟨hhead, hlast, hchain⟩, ?_⟩
      intro x hx
      rcases hblk x hx with he | hb2
      · rw [he]
        exact hsb
      · exact hb2
    · intro q hq hqb
      obtain ⟨w, hw, hwb⟩ := popBound hInv2 hpop q hq
        (fun x hx => hqb x (List.mem_of_mem_tail hx))
      have hvw : v = w := by
        rw [hv] at hw
        exact Option.some.inj hw
      omega

/-- C10 witness: the concrete 2-step result is no longer than a concrete
4-step comparison path. -/
theorem c10_optimal_witness :
    ([(0, 0), (0, 1000), (0, 2000)] : List Coord).length ≤
      ([(0, 0), (1000, 0), (1000, 1000), (1000, 2000), (0, 2000)] : List Coord).length :=
  (c10_optimal (0, 0) (0, 2000) [] 10 [(0, 0), (0, 1000), (0, 2000)]
    (by decide) (by decide)).2
    [(0, 0), (1000, 0), (1000, 1000), (1000, 2000), (0, 2000)] (by decide) (by decide)

/-- C1 counterexample: a blocked cell that does not separate start from
goal (a 6-step unblocked connection exists, shown explicitly) still forces
a detour: the returned path has 4 steps although the Manhattan
grid-distance is 2 steps. -/
theorem c1_counterexample :
    ValidPath (0, 0) (2000, 0) [(0, 0), (0, 1000), (1000, 1000), (2000, 1000), (2000, 0)] ∧
    AvoidsBlocked [(1000, 0)] [(0, 0), (0, 1000), (1000, 1000), (2000, 1000), (2000, 0)] ∧
    LatticeAligned (0, 0) (2000, 0) ∧
    manSteps (0, 0) (2000, 0) = 2 ∧
    astarRun (0, 0) (2000, 0) [(1000, 0)] 30 =
      some [(0, 0), (0, -1000), (1000, -1000), (2000, -1000), (2000, 0)] ∧
    ([(0, 0), (0, -1000), (1000, -1000), (2000, -1000), (2000, 0)] : List Coord).length - 1 ≠ 2 :=
  ⟨by decide, by decide, ⟨2, 0, by decide⟩, by decide, by decide, by decide⟩

/-- C1 amended: with an empty blocked set and lattice-aligned start and
goal, `astar` terminates (some iteration bound returns a result), never
reports NotFound, and every returned path's step count is exactly the
Manhattan grid-distance in units of the lattice pitch.  (The unamended
claim over all non-separating blocked sets is false: blocked cells can
force detours.) -/
theorem c1_aligned_exact (s g : Coord) (hal : LatticeAligned s g) :
    (∃ fuel p, astarRun s g [] fuel = some p) ∧
    (∀ fuel p, astarRun s g [] fuel = some p →
      p ≠ [] ∧ p.length = manSteps s g + 1) := by
  refine ⟨astar_complete_free hal, ?_⟩
  intro fuel p h
  obtain ⟨k, st2, _, hit, hres⟩ := run_cases fuel (initState s) p h
  have hInv2 : SInv s g [] st2 := inv_iter k _ _ (inv_init s g []) hit
  rcases hres with ⟨hstep, _⟩ | hgp
  · exact absurd (popMin_eq_none.mp (astarStep_empty_inv hstep)) (frontier_nonempty hInv2)
  · obtain ⟨v, hv, hne, hhead, hlast, hlen, hchain, _⟩ := success_props hInv2 hgp
    obtain ⟨f0, rest, hpop, _⟩ := astarStep_goal_inv hgp
    obtain ⟨hd1, hd2⟩ := aligned_dvd hal
    obtain ⟨q, hq, hqlen⟩ := exists_min_path (manSteps s g) s g hd1 hd2 (aligned_hMu hal)
    obtain ⟨w, hw, hwb⟩ := popBound hInv2 hpop q hq (fun x _ => List.not_mem_nil x)
    have hvw : v = w := by
      rw [hv] at hw
      exact Option.some.inj hw
    obtain ⟨a, t, rfl⟩ : ∃ a t, p = a :: t := by
      cases p with
      | nil => exact absurd rfl hne
      | cons a t => exact ⟨a, t, rfl⟩
    have ha : a = s := by simpa using hhead
    rw [ha] at hchain hlast
    have hlb := chain_hMu_le t s hchain hlast
    have hD := aligned_hMu hal
    refine ⟨by simp, ?_⟩
    rw [hqlen] at hwb
    simp only [List.length_cons] at hlen ⊢
    have h2 : manSteps s g ≤ t.length := by
      rw [hD] at hlb
      omega
    omega

/-- C1 witness: a concrete aligned, unblocked run whose step count equals
the Manhattan grid-distance. -/
theorem c1_aligned_exact_witness :
    ([(0, 0), (0, 1000), (0, 2000)] : List Coord) ≠ [] ∧
    ([(0, 0), (0, 1000), (0, 2000)] : List Coord).length = manSteps (0, 0) (0, 2000) + 1 :=
  (c1_aligned_exact (0, 0) (0, 2000) ⟨0, 2, by decide⟩).2 10
    [(0, 0), (0, 1000), (0, 2000)] (by decide)

/-- C2 counterexample: the claim as stated is false.  Here every one of
the four lattice neighbours of the goal is blocked and goal differs from
start, yet `astar` terminates with the non-empty path `[start, goal]` —
because the start cell is itself one of the blocked neighbours and the
search never tests the popped cell against the blocked set. -/
theorem c2_counterexample :
    nbrs (0, 0) = [(1000, 0), (-1000, 0), (0, 1000), (0, -1000)] ∧
    ((1000, 0) : Coord) ∈ ([(1000, 0), (-1000, 0), (0, 1000), (0, -1000)] : List Coord) ∧
    ((-1000, 0) : Coord) ∈ ([(1000, 0), (-1000, 0), (0, 1000), (0, -1000)] : List Coord) ∧
    ((0, 1000) : Coord) ∈ ([(1000, 0), (-1000, 0), (0, 1000), (0, -1000)] : List Coord) ∧
    ((0, -1000) : Coord) ∈ ([(1000, 0), (-1000, 0), (0, 1000), (0, -1000)] : List Coord) ∧
    ((0, 0) : Coord) ≠ (0, 1000) ∧
    astarRun (0, 1000) (0, 0) [(1000, 0), (-1000, 0), (0, 1000), (0, -1000)] 2 =
      some [(0, 1000), (0, 0)] ∧
    some [((0 : ℤ), (1000 : ℤ)), (0, 0)] ≠ some ([] : List Coord) :=
  ⟨by decide, by decide, by decide, by decide, by decide, by decide, by decide, by decide⟩

/-- C2 amended: when the rounded goal is blocked, or all four of its
lattice neighbours are blocked while the start cell itself is unblocked
(the counterexample shows this extra condition is necessary), and goal
differs from start, `astar` can never succeed: every run either is still
searching or has returned the NotFound signal.  Termination itself is not
guaranteed: when the goal is blocked and no blocked cell lies strictly to
the right of start — as in the spec's own scenario start=(0,0),
goal=(0,0.001), blocked={goal} — the loop never produces a result. -/
theorem c2_unreachable_goal (s g : Coord) (b : List Coord)
    (hgoal : (g ∈ b ∧ g ≠ s) ∨ ((∀ nb ∈ nbrs g, nb ∈ b) ∧ g ≠ s ∧ s ∉ b)) (fuel : ℕ) :
    (astarRun s g b fuel = none ∨ astarRun s g b fuel = some []) ∧
    (g ∈ b → (∀ bc ∈ b, bc.1 ≤ s.1) → astarRun s g b fuel = none) := by
  constructor
  · cases h : astarRun s g b fuel with
    | none => exact Or.inl rfl
    | some p =>
      have hp := qinv_never_found hgoal fuel p h
      rw [hp]
      exact Or.inr rfl
  · intro hgb hleft
    have hgs : g ≠ s := by
      rcases hgoal with ⟨_, hgs⟩ | ⟨_, hgs, _⟩
      · exact hgs
      · exact hgs
    have hqinit : QInv s g b (initState s) := by
      intro f c hmem
      simp only [initState, List.mem_singleton, Prod.mk.injEq] at hmem
      constructor
      · rw [hmem.2]
        exact fun he => hgs he.symm
      · exact Or.inl hmem.2
    exact no_termination_of_blocked_goal hgb hgs hleft fuel (initState s)
      (inv_init s g b) hqinit

/-- C2 witness: a blocked goal behind an enclosing wall around start, so
the frontier empties and the run reports NotFound. -/
theorem c2_unreachable_goal_witness :
    (((5000, 5000) : Coord) ∈
        ([(0, 1000), (0, -1000), (1000, 0), (-1000, 0), (5000, 5000)] : List Coord) ∧
      ((5000, 5000) : Coord) ≠ (0, 0)) ∧
    (astarRun (0, 0) (5000, 5000)
        [(0, 1000), (0, -1000), (1000, 0), (-1000, 0), (5000, 5000)] 2 = none ∨
      astarRun (0, 0) (5000, 5000)
        [(0, 1000), (0, -1000), (1000, 0), (-1000, 0), (5000, 5000)] 2 = some []) :=
  ⟨⟨by decide, by decide⟩,
    (c2_unreachable_goal (0, 0) (5000, 5000) _ (Or.inl ⟨by decide, by decide⟩) 2).1⟩

/-- C3 counterexample: on the spec's own scenario — start `(0.0, 0.0)`,
goal `(0.0005, 0.0)` (500 micro-units, off the 0.001 lattice), no blocked
cells — the search never terminates at all: no iteration bound makes it
return anything, in particular not the claimed NotFound. -/
theorem c3_counterexample :
    ¬ ∃ (fuel : ℕ) (p : List Coord), astarRun (0, 0) (500, 0) [] fuel = some p := by
  rintro ⟨fuel, p, h⟩
  have hmis : ¬ LatticeAligned (0, 0) (500, 0) := by
    rintro ⟨i, j, hij⟩
    simp only [Prod.mk.injEq] at hij
    omega
  rw [astarRun,
    no_termination_of_misaligned_free hmis fuel (initState _) (inv_init _ _ _)] at h
  exact Option.noConfusion h

/-- C3 amended: a goal off the 0.001 lattice generated from start is never
popped, so `astar` can never succeed on such inputs: every run either is
still searching or has returned the NotFound signal (possible when blocked
cells enclose the start); and with an empty blocked set the search never
terminates at all — no iteration bound produces any result. -/
theorem c3_misaligned_no_success (s g : Coord) (b : List Coord)
    (hmis : ¬ LatticeAligned s g) (fuel : ℕ) :
    (astarRun s g b fuel = none ∨ astarRun s g b fuel = some []) ∧
    (b = [] → astarRun s g b fuel = none) := by
  constructor
  · cases h : astarRun s g b fuel with
    | none => exact Or.inl rfl
    | some p =>
      refine Or.inr ?_
      obtain ⟨k, st2, _, hit, hres⟩ := run_cases fuel (initState s) p h
      have hInv2 : SInv s g b st2 := inv_iter k _ _ (inv_init s g b) hit
      rcases hres with ⟨_, hp⟩ | hgp
      · rw [hp]
      · obtain ⟨f0, rest, hpop, _⟩ := astarStep_goal_inv hgp
        exact absurd rfl (pop_ne_goal_of_misaligned hInv2 hmis hpop)
  · intro hb
    subst hb
    exact no_termination_of_misaligned_free hmis fuel (initState s) (inv_init s g [])

/-- C3 witness: a misaligned goal with the start enclosed by blocked
cells; the run terminates with NotFound, confirming the amended
disjunction at a concrete input. -/
theorem c3_misaligned_no_success_witness :
    astarRun (0, 0) (500, 0) [(1000, 0), (-1000, 0), (0, 1000), (0, -1000)] 2 = none ∨
    astarRun (0, 0) (500, 0) [(1000, 0), (-1000, 0), (0, 1000), (0, -1000)] 2 = some [] :=
  (c3_misaligned_no_success (0, 0) (500, 0) [(1000, 0), (-1000, 0), (0, 1000), (0, -1000)]
    (by
      rintro ⟨i, j, hij⟩
      simp only [Prod.mk.injEq] at hij
      omega) 2).1

/-- C8: the outcome of the search is a function of the multiset of
frontier entries alone: runs from frontiers that are permutations of each
other (same cost and back-link tables) are identical for every fuel.
Ties on equal scaled keys are broken by the lexicographic order on the
coordinate pair built into `entryLe`, so the result is deterministic. -/
theorem c8_deterministic (g : Coord) (b : List Coord) :
    ∀ (fuel : ℕ) (q1 q2 : List Entry) (came : List (Coord × Option Coord))
      (gt : List (Coord × ℕ)), q1.Perm q2 →
    astarFuel g b fuel ⟨q1, came, gt⟩ = astarFuel g b fuel ⟨q2, came, gt⟩ := by
  intro fuel
  induction fuel with
  | zero => intro q1 q2 came gt _; rfl
  | succ n ih =>
    intro q1 q2 came gt hperm
    rw [show astarFuel g b (n + 1) ⟨q1, came, gt⟩ =
      (match astarStep g b ⟨q1, came, gt⟩ with
        | .emptyFrontier => some []
        | .goalPopped p => p
        | .more st2 => astarFuel g b n st2) from rfl,
      show astarFuel g b (n + 1) ⟨q2, came, gt⟩ =
      (match astarStep g b ⟨q2, came, gt⟩ with
        | .emptyFrontier => some []
        | .goalPopped p => p
        | .more st2 => astarFuel g b n st2) from rfl]
    cases hp1 : popMin q1 with
    | none =>
      have hq1 : q1 = [] := popMin_eq_none.mp hp1
      have hq2 : q2 = [] := by
        rw [hq1] at hperm
        exact hperm.symm.eq_nil
      have h1 : astarStep g b ⟨q1, came, gt⟩ = .emptyFrontier :=
        astarStep_of_popMin_none g b ⟨q1, came, gt⟩ hp1
      have h2 : astarStep g b ⟨q2, came, gt⟩ = .emptyFrontier :=
        astarStep_of_popMin_none g b ⟨q2, came, gt⟩ (popMin_eq_none.mpr hq2)
      rw [h1, h2]
    | some mr1 =>
      obtain ⟨m1, r1⟩ := mr1
      have hne2 : q2 ≠ [] := by
        intro hq2
        rw [hq2] at hperm
        have hq1 : q1 = [] := hperm.eq_nil
        rw [hq1] at hp1
        exact Option.noConfusion hp1
      cases hp2 : popMin q2 with
      | none => exact absurd (popMin_eq_none.mp hp2) hne2
      | some mr2 =>
        obtain ⟨m2, r2⟩ := mr2
        have hm12 : m1 = m2 :=
          entryLe_antisymm
            (popMin_min hp1 m2 (hperm.mem_iff.mpr (popMin_mem hp2)))
            (popMin_min hp2 m1 (hperm.mem_iff.mp (popMin_mem hp1)))
        have hr : r1.Perm r2 := by
          have h1 := popMin_perm hp1
          have h2 := popMin_perm hp2
          have h3 : (m1 :: r1).Perm (m1 :: r2) :=
            h1.symm.trans (hperm.trans (hm12 ▸ h2))
          exact h3.cons_inv
        obtain ⟨f0, cur⟩ := m1
        rw [← hm12] at hp2
        have hstep1 := astarStep_of_popMin_some g b ⟨q1, came, gt⟩ f0 cur r1 hp1
        have hstep2 := astarStep_of_popMin_some g b ⟨q2, came, gt⟩ f0 cur r2 hp2
        rw [hstep1, hstep2]
        by_cases hcg : cur = g
        · rw [if_pos hcg, if_pos hcg]
        · rw [if_neg hcg, if_neg hcg]
          dsimp only
          unfold expand
          obtain ⟨hqp, hcame, hgg⟩ := fold_congr (nbrs cur) r1 r2 came gt hr
          have e1 : (nbrs cur).foldl (relaxOne g b cur) ⟨r1, came, gt⟩ =
              (⟨((nbrs cur).foldl (relaxOne g b cur) ⟨r1, came, gt⟩).openq,
                ((nbrs cur).foldl (relaxOne g b cur) ⟨r1, came, gt⟩).came,
                ((nbrs cur).foldl (relaxOne g b cur) ⟨r1, came, gt⟩).g⟩ : AState) := rfl
          have e2 : (nbrs cur).foldl (relaxOne g b cur) ⟨r2, came, gt⟩ =
              (⟨((nbrs cur).foldl (relaxOne g b cur) ⟨r2, came, gt⟩).openq,
                ((nbrs cur).foldl (relaxOne g b cur) ⟨r2, came, gt⟩).came,
                ((nbrs cur).foldl (relaxOne g b cur) ⟨r2, came, gt⟩).g⟩ : AState) := rfl
          rw [e1, e2, ← hcame, ← hgg]
          exact ih _ _ _ _ hqp

/-- C8 witness: two concrete permuted frontiers give the same outcome. -/
theorem c8_deterministic_witness :
    astarFuel (0, 2000) [] 10 ⟨[(0, (0, 0)), (5000, (0, 1000))], [((0, 0), none)],
        [((0, 0), 0)]⟩ =
      astarFuel (0, 2000) [] 10 ⟨[(5000, (0, 1000)), (0, (0, 0))], [((0, 0), none)],
        [((0, 0), 0)]⟩ :=
  c8_deterministic (0, 2000) [] 10 _ _ _ _ (List.Perm.swap _ _ _)
